import Mathlib

/-!
Shallow embedding of `src/lib/dependency_graph.ts` (fuz_gitops): the
dependency-graph data model, graph construction from repo manifests,
topological sort, cycle detection, analysis, and serialization, together
with proofs of the specified properties.

JS `Map`s are embedded as insertion-ordered association lists
(`List (String × α)`), JS `Set`s as insertion-ordered duplicate-free
lists (`List String`); `Map.set` updates in place or appends,
`Set.add` appends when absent, matching JS iteration-order semantics.
-/

/-- JS `Map.set`: replace the value at an existing key in place, else append. -/
def mset {α : Type} (m : List (String × α)) (k : String) (v : α) : List (String × α) :=
  match m with
  | [] => [(k, v)]
  | (k0, v0) :: rest => if k0 = k then (k, v) :: rest else (k0, v0) :: mset rest k v

/-- JS `Map.get`: first (unique) entry at a key. -/
def mget {α : Type} (m : List (String × α)) (k : String) : Option α :=
  match m with
  | [] => none
  | (k0, v0) :: rest => if k0 = k then some v0 else mget rest k

/-- JS `Map.has`. -/
def mhas {α : Type} (m : List (String × α)) (k : String) : Bool :=
  (mget m k).isSome

/-- JS `Set.add`: append when absent, no-op when present. -/
def sadd (s : List String) (x : String) : List String :=
  if s.contains x then s else s ++ [x]

/-- Lexicographic comparison of strings by code point, embedding the JS
default `Array.sort` comparator on strings. -/
def lex_lt : List Char → List Char → Bool
  | [], [] => false
  | [], _ :: _ => true
  | _ :: _, [] => false
  | a :: as, b :: bs =>
    if a.toNat < b.toNat then true
    else if b.toNat < a.toNat then false
    else lex_lt as bs

def str_lt (a b : String) : Bool := lex_lt a.data b.data

/-- Insert into a sorted list (JS `Array.sort` on strings produces the
unique sorted arrangement of the multiset, so insertion sort embeds it). -/
def sort_insert (a : String) : List String → List String
  | [] => [a]
  | b :: bs => if str_lt b a then b :: sort_insert a bs else a :: b :: bs

/-- JS `[...xs].sort()` for string arrays. -/
def sort_strings : List String → List String
  | [] => []
  | a :: as => sort_insert a (sort_strings as)

/-! ## Data model (`dependency_graph.ts`) -/

/-- `DEPENDENCY_TYPE`: prod, peer, dev. -/
inductive DependencyType where
  | prod
  | peer
  | dev
deriving DecidableEq

/-- `DependencySpec`: metadata for one directed dependency edge. -/
structure DependencySpec where
  type : DependencyType
  version : String
  resolved : Option String
deriving DecidableEq

/-- `DependencyNode` (the optional `repo` back-reference carries no graph
data and is omitted). -/
structure DependencyNode where
  name : String
  version : String
  dependencies : List (String × DependencySpec)
  dependents : List String
  publishable : Bool
deriving DecidableEq

/-- `DependencyGraph`: nodes plus reverse adjacency (pkg -> dependents). -/
structure DependencyGraph where
  nodes : List (String × DependencyNode)
  edges : List (String × List String)
deriving DecidableEq

/-- The slice of `package.json` read by `init_from_repos`.  `version` and the
three dependency sections may be absent; `private_flag` models the truthiness
of the manifest `private` field. -/
structure PackageJson where
  version : Option String
  private_flag : Option Bool
  dependencies : Option (List (String × String))
  devDependencies : Option (List (String × String))
  peerDependencies : Option (List (String × String))
deriving DecidableEq

structure Library where
  name : String
  package_json : PackageJson
deriving DecidableEq

/-- The slice of `LocalRepo` read by `init_from_repos`. -/
structure LocalRepo where
  library : Library
deriving DecidableEq

/-! ## Graph construction: `DependencyGraph.init_from_repos` -/

/-- First-pass node creation for one repo: version defaulting
(`version || '0.0.0'`), publishable flag (`!!private === false`), and the
merge of the three dependency sections (prod inserted first, then peer
overwriting unconditionally, then dev only when the name is absent). -/
def mk_node (repo : LocalRepo) : DependencyNode :=
  let pj := repo.library.package_json
  let v := pj.version.getD ""
  let deps := pj.dependencies.getD []
  let dev_deps := pj.devDependencies.getD []
  let peer_deps := pj.peerDependencies.getD []
  let d1 := deps.foldl (fun m p => mset m p.1 ⟨DependencyType.prod, p.2, none⟩) []
  let d2 := peer_deps.foldl (fun m p => mset m p.1 ⟨DependencyType.peer, p.2, none⟩) d1
  let d3 := dev_deps.foldl
    (fun m p => if mhas m p.1 then m else mset m p.1 ⟨DependencyType.dev, p.2, none⟩) d2
  { name := repo.library.name
    version := if v = "" then "0.0.0" else v
    dependencies := d3
    dependents := []
    publishable := !(pj.private_flag.getD false) }

/-- Pass 1 of `init_from_repos`: create one node (and an empty edge set)
per repo. -/
def pass1 (repos : List LocalRepo) : DependencyGraph :=
  repos.foldl
    (fun g repo =>
      { nodes := mset g.nodes repo.library.name (mk_node repo)
        edges := mset g.edges repo.library.name [] })
    ⟨[], []⟩

/-- One step of pass 2: when the dependency target is a graph node, record
`from_name` in the target's `dependents` set and in `edges[target]`. -/
def add_edge (g : DependencyGraph) (dep_name from_name : String) : DependencyGraph :=
  match mget g.nodes dep_name with
  | none => g
  | some dep_node =>
    { nodes := mset g.nodes dep_name
        { dep_node with dependents := sadd dep_node.dependents from_name }
      edges :=
        match mget g.edges dep_name with
        | none => g.edges
        | some s => mset g.edges dep_name (sadd s from_name) }

/-- Pass 2 of `init_from_repos`: for every node, for every dependency,
build the reverse edges. -/
def pass2 (g0 : DependencyGraph) : DependencyGraph :=
  (g0.nodes.map Prod.fst).foldl
    (fun g n =>
      match mget g.nodes n with
      | none => g
      | some node => node.dependencies.foldl (fun g2 p => add_edge g2 p.1 node.name) g)
    g0

/-- `DependencyGraph.init_from_repos`. -/
def DependencyGraph.init_from_repos (repos : List LocalRepo) : DependencyGraph :=
  pass2 (pass1 repos)

/-! ## Queries -/

def DependencyGraph.get_node (g : DependencyGraph) (name : String) : Option DependencyNode :=
  mget g.nodes name

/-- `get_dependents`: `this.edges.get(name) || new Set()`. -/
def DependencyGraph.get_dependents (g : DependencyGraph) (name : String) : List String :=
  (mget g.edges name).getD []

/-- `get_dependencies`: the node's dependency mapping, or empty. -/
def DependencyGraph.get_dependencies (g : DependencyGraph) (name : String) :
    List (String × DependencySpec) :=
  match mget g.nodes name with
  | some node => node.dependencies
  | none => []

/-! ## Topological sort

The graph method builds `{id, depends_on}` items and delegates to
`topological_sort` of `@fuzdev/fuz_util/sort.js`, which is not part of this
repository's sources. -/

structure SortItem where
  id : String
  depends_on : List String
deriving DecidableEq

/-- The items handed to the generic sort: one per node, `depends_on`
filtered to internal dependencies, minus dev edges when `exclude_dev`. -/
def DependencyGraph.sort_items (g : DependencyGraph) (exclude_dev : Bool) : List SortItem :=
  g.nodes.map fun p =>
    { id := p.2.name
      depends_on :=
        (p.2.dependencies.filter fun q =>
            if exclude_dev && q.2.type == DependencyType.dev then false
            else mhas g.nodes q.1).map Prod.fst }

def find_item (items : List SortItem) (i : String) : Option SortItem :=
  items.find? fun it => it.id == i

/-- An item is zero-indegree when none of its dependencies remain unemitted. -/
def zero_indegree (rem : List SortItem) (it : SortItem) : Bool :=
  it.depends_on.all fun d => (find_item rem d).isNone

/-- Remove the first item with the given id. -/
def remove_id : List SortItem → String → List SortItem
  | [], _ => []
  | x :: xs, i => if x.id = i then xs else x :: remove_id xs i

/-- Modelled from the spec: the Kahn-style loop of the external
`topological_sort` in `@fuzdev/fuz_util/sort.js` (not in this repository's
sources) — repeatedly emit the first remaining zero-indegree item (ties
broken by original insertion order); when none exists and items remain,
fail with the unresolved item names. -/
def kahn_run : Nat → List SortItem → List SortItem → Except (List String) (List SortItem)
  | _, [], acc => Except.ok acc.reverse
  | 0, rem, _ => Except.error (rem.map SortItem.id)
  | fuel + 1, rem, acc =>
    match rem.find? (zero_indegree rem) with
    | some it => kahn_run fuel (remove_id rem it.id) (it :: acc)
    | none => Except.error (rem.map SortItem.id)

/-- Modelled from the spec: the external generic `topological_sort`.  A
failing result carries the unresolved node names. -/
def topological_sort_generic (items : List SortItem) : Except (List String) (List SortItem) :=
  kahn_run items.length items []

/-- `DependencyGraph.topological_sort`; the thrown `Error` is embedded as
the `Except.error` branch. -/
def DependencyGraph.topological_sort (g : DependencyGraph) (exclude_dev : Bool) :
    Except (List String) (List String) :=
  match topological_sort_generic (g.sort_items exclude_dev) with
  | Except.ok sorted => Except.ok (sorted.map SortItem.id)
  | Except.error e => Except.error e

/-! ## Cycle detection -/

/-- The mutable state of `#find_cycles`; the graph itself is threaded
through to make the absence of graph mutation provable. -/
structure DfsState where
  graph : DependencyGraph
  cycles : List (List String)
  visited : List String
  rec_stack : List String
deriving DecidableEq

/-- Dedupe key of a cycle: `[...cycle].sort().join(',')`. -/
def cycle_key (c : List String) : String :=
  String.intercalate "," (sort_strings c)

/-- The back-edge branch of the DFS: slice the cycle out of the current
path (JS `indexOf` / `slice`, including the `slice(-1)` behavior when the
index is `-1`), and push it unless a cycle with the same key exists. -/
def push_cycle (st : DfsState) (path : List String) (dep_name : String) : DfsState :=
  let cycle :=
    match path.findIdx? (fun x => x == dep_name) with
    | some cycle_start => path.drop cycle_start ++ [dep_name]
    | none => path.drop (path.length - 1) ++ [dep_name]
  let key := cycle_key cycle
  if st.cycles.any (fun c => cycle_key c == key) then st
  else { st with cycles := st.cycles ++ [cycle] }

mutual
/-- The recursive `dfs` of `#find_cycles` (fuel bounds the recursion
depth, which the caller sets above the node count). -/
def dfs (inc : DependencySpec → Bool) : Nat → String → List String → DfsState → DfsState
  | 0, _, _, st => st
  | fuel + 1, name, path, st0 =>
    let st1 : DfsState :=
      { st0 with
        visited := sadd st0.visited name
        rec_stack := sadd st0.rec_stack name }
    let path1 := path ++ [name]
    let st2 :=
      match mget st1.graph.nodes name with
      | none => st1
      | some node => dfs_deps inc fuel path1 node.dependencies st1
    { st2 with rec_stack := st2.rec_stack.filter fun x => !(x == name) }

/-- The dependency loop inside `dfs`. -/
def dfs_deps (inc : DependencySpec → Bool) :
    Nat → List String → List (String × DependencySpec) → DfsState → DfsState
  | _, _, [], st => st
  | fuel, path1, p :: rest, st =>
    let st1 :=
      if !(inc p.2) then st
      else if mhas st.graph.nodes p.1 then
        if !(st.visited.contains p.1) then dfs inc fuel p.1 path1 st
        else if st.rec_stack.contains p.1 then push_cycle st path1 p.1
        else st
      else st
    dfs_deps inc fuel path1 rest st1
end

/-- `#find_cycles`, returning the whole final DFS state (graph included). -/
def find_cycles_st (g : DependencyGraph) (inc : DependencySpec → Bool) : DfsState :=
  (g.nodes.map Prod.fst).foldl
    (fun st name => if st.visited.contains name then st else dfs inc (g.nodes.length + 1) name [] st)
    ⟨g, [], [], []⟩

/-- `#find_cycles`. -/
def find_cycles (g : DependencyGraph) (inc : DependencySpec → Bool) : List (List String) :=
  (find_cycles_st g inc).cycles

structure CyclesByType where
  production_cycles : List (List String)
  dev_cycles : List (List String)
deriving DecidableEq

/-- `detect_cycles_by_type`. -/
def DependencyGraph.detect_cycles_by_type (g : DependencyGraph) : CyclesByType :=
  { production_cycles := find_cycles g fun spec => !(spec.type == DependencyType.dev)
    dev_cycles := find_cycles g fun spec => spec.type == DependencyType.dev }

/-! ## Serialization and analysis -/

structure JsonNode where
  name : String
  version : String
  dependencies : List (String × DependencySpec)
  dependents : List String
  publishable : Bool
deriving DecidableEq

structure DependencyGraphJson where
  nodes : List JsonNode
  edges : List (String × String)
deriving DecidableEq

/-- `toJSON`. -/
def DependencyGraph.toJSON (g : DependencyGraph) : DependencyGraphJson :=
  { nodes := g.nodes.map fun p =>
      { name := p.2.name
        version := p.2.version
        dependencies := p.2.dependencies
        dependents := p.2.dependents
        publishable := p.2.publishable }
    edges := g.edges.flatMap fun p => p.2.map fun t => (p.1, t) }

structure AnalyzeResult where
  production_cycles : List (List String)
  dev_cycles : List (List String)
  wildcard_deps : List (String × String × String)
  missing_peers : List (String × String)
deriving DecidableEq

/-- `DependencyGraphBuilder.build_from_repos`. -/
def DependencyGraphBuilder.build_from_repos (repos : List LocalRepo) : DependencyGraph :=
  DependencyGraph.init_from_repos repos

/-- `DependencyGraphBuilder.compute_publishing_order`. -/
def DependencyGraphBuilder.compute_publishing_order (g : DependencyGraph) :
    Except (List String) (List String) :=
  g.topological_sort true

/-- `DependencyGraphBuilder.analyze`: cycle detection plus the scan for
wildcard versions and external peer dependencies. -/
def DependencyGraphBuilder.analyze (g : DependencyGraph) : AnalyzeResult :=
  let cycles := g.detect_cycles_by_type
  { production_cycles := cycles.production_cycles
    dev_cycles := cycles.dev_cycles
    wildcard_deps := g.nodes.flatMap fun p =>
      (p.2.dependencies.filter fun q => q.2.version == "*").map fun q =>
        (p.2.name, q.1, q.2.version)
    missing_peers := g.nodes.flatMap fun p =>
      (p.2.dependencies.filter fun q =>
          q.2.type == DependencyType.peer && !(mhas g.nodes q.1)).map fun q =>
        (p.2.name, q.1) }

/-! ## State-threaded variants used to state graph immutability -/

def DependencyGraph.topological_sort_st (g : DependencyGraph) (exclude_dev : Bool) :
    Except (List String) (List String) × DependencyGraph :=
  (g.topological_sort exclude_dev, g)

def DependencyGraph.detect_cycles_by_type_st (g : DependencyGraph) :
    CyclesByType × DependencyGraph :=
  let st1 := find_cycles_st g fun spec => !(spec.type == DependencyType.dev)
  let st2 := find_cycles_st st1.graph fun spec => spec.type == DependencyType.dev
  (⟨st1.cycles, st2.cycles⟩, st2.graph)

def DependencyGraph.toJSON_st (g : DependencyGraph) : DependencyGraphJson × DependencyGraph :=
  (g.toJSON, g)

def DependencyGraphBuilder.analyze_st (g : DependencyGraph) :
    AnalyzeResult × DependencyGraph :=
  let cg := g.detect_cycles_by_type_st
  (⟨cg.1.production_cycles, cg.1.dev_cycles,
    (DependencyGraphBuilder.analyze cg.2).wildcard_deps,
    (DependencyGraphBuilder.analyze cg.2).missing_peers⟩, cg.2)

/-! ## Cycle predicates over sort items -/

/-- A retained edge between sort items: `a` depends on `b` and both are items. -/
def is_edge (items : List SortItem) (a b : String) : Bool :=
  match find_item items a with
  | some it => it.depends_on.contains b && (find_item items b).isSome
  | none => false

/-- Consecutive elements are edges. -/
def is_walk (items : List SortItem) : List String → Bool
  | [] => true
  | [_] => true
  | a :: b :: rest => is_edge items a b && is_walk items (b :: rest)

/-- A nonempty closed walk. -/
def is_cycle (items : List SortItem) (l : List String) : Bool :=
  match l with
  | [] => false
  | x :: _ => is_walk items (l ++ [x])

/-- The filtered item graph is acyclic. -/
def acyclic (items : List SortItem) : Prop :=
  ∀ l, is_cycle items l = false

/-- Well-formedness of a built graph: unique keys, `name` field matching the
key, and edge keys mirroring node keys.  `init_from_repos` establishes this. -/
def wf_graph (g : DependencyGraph) : Prop :=
  (g.nodes.map Prod.fst).Nodup ∧
  (∀ p ∈ g.nodes, p.2.name = p.1) ∧
  g.edges.map Prod.fst = g.nodes.map Prod.fst

instance (g : DependencyGraph) : Decidable (wf_graph g) := by
  unfold wf_graph
  infer_instance

/-- `a` occurs strictly before `b` in the list. -/
def precedes (l : List String) (a b : String) : Prop :=
  ∃ i j, i < j ∧ l.get? i = some a ∧ l.get? j = some b

/-- The first still-unemitted dependency of `a` among the remaining items:
the step function for walking a stuck Kahn state. -/
def next_in (rem : List SortItem) (a : String) : Option String :=
  match find_item rem a with
  | none => none
  | some it => it.depends_on.find? fun d => (find_item rem d).isSome

/-- Iterate `next_in` to build a walk from `a`. -/
def walkF (rem : List SortItem) : Nat → String → List String
  | 0, a => [a]
  | k + 1, a =>
    match next_in rem a with
    | none => [a]
    | some b => a :: walkF rem k b

/-- The emitted-prefix invariant of the Kahn loop: every item's retained
dependencies are already emitted by the time the item appears. -/
inductive SortedFrom (items : List SortItem) : List String → List SortItem → Prop
  | nil (em : List String) : SortedFrom items em []
  | cons (em : List String) (it : SortItem) (l : List SortItem)
      (hdeps : ∀ d ∈ it.depends_on, (find_item items d).isSome → d ∈ em)
      (htail : SortedFrom items (it.id :: em) l) :
      SortedFrom items em (it :: l)

/-- A two-node graph with no dependencies (C1 witness input). -/
def two_node_graph : DependencyGraph :=
  ⟨[("a", ⟨"a", "1.0.0", [], [], true⟩), ("b", ⟨"b", "1.0.0", [], [], true⟩)],
    [("a", []), ("b", [])]⟩

/-- A two-node graph with a mutual prod cycle (C3 witness input). -/
def cycle_graph : DependencyGraph :=
  ⟨[("a", ⟨"a", "1.0.0", [("b", ⟨DependencyType.prod, "1.0.0", none⟩)], ["b"], true⟩),
    ("b", ⟨"b", "1.0.0", [("a", ⟨DependencyType.prod, "1.0.0", none⟩)], ["a"], true⟩)],
    [("a", ["b"]), ("b", ["a"])]⟩

/-- A two-node graph with a mutual dev cycle (C4 witness input). -/
def dev_cycle_graph : DependencyGraph :=
  ⟨[("a", ⟨"a", "1.0.0", [("b", ⟨DependencyType.dev, "1.0.0", none⟩)], ["b"], true⟩),
    ("b", ⟨"b", "1.0.0", [("a", ⟨DependencyType.dev, "1.0.0", none⟩)], ["a"], true⟩)],
    [("a", ["b"]), ("b", ["a"])]⟩

/-- Everything of a node except its `dependents` set. -/
def node_core (n : DependencyNode) : String × String × List (String × DependencySpec) × Bool :=
  (n.name, n.version, n.dependencies, n.publishable)

/-- C2 counterexample input: `"y"` appears under `dependencies` with range
`"1.0.0"` and under `peerDependencies` with range `"2.0.0"`. -/
def c2_repo : LocalRepo :=
  ⟨⟨"x", ⟨some "1.0.0", none, some [("y", "1.0.0")], none, some [("y", "2.0.0")]⟩⟩⟩

/-- Relation between an intermediate pass-2 graph and the pass-1 graph:
same key sets, and the same nodes up to their `dependents`. -/
def pass2_inv (g g0 : DependencyGraph) : Prop :=
  g.nodes.map Prod.fst = g0.nodes.map Prod.fst ∧
  g.edges.map Prod.fst = g0.edges.map Prod.fst ∧
  ∀ x, (mget g.nodes x).map node_core = (mget g0.nodes x).map node_core

/-! ## Basic lemmas about the embedded Map/Set operations -/

theorem contains_iff (s : List String) (x : String) : s.contains x = true ↔ x ∈ s := by
  simp

theorem mget_mset {α : Type} (m : List (String × α)) (k k' : String) (v : α) :
    mget (mset m k v) k' = if k = k' then some v else mget m k' := by
  induction m with
  | nil => by_cases h : k = k' <;> simp [mset, mget, h]
  | cons p rest ih =>
    obtain ⟨k0, v0⟩ := p
    by_cases h0 : k0 = k
    · subst h0
      by_cases h1 : k0 = k' <;> simp [mset, mget, h1]
    · by_cases h1 : k0 = k'
      · subst h1
        have h2 : ¬ k = k0 := fun h => h0 h.symm
        simp [mset, mget, h0, h2]
      · simp [mset, mget, h0, h1, ih]

theorem mget_eq_none_of_not_mem_keys {α : Type} (m : List (String × α)) (k : String)
    (h : k ∉ m.map Prod.fst) : mget m k = none := by
  induction m with
  | nil => rfl
  | cons p rest ih =>
    simp only [List.map_cons, List.mem_cons] at h
    push_neg at h
    have h1 : p.1 ≠ k := fun hh => h.1 hh.symm
    obtain ⟨k0, v0⟩ := p
    simpa [mget, h1] using ih h.2

theorem mem_keys_of_mget_isSome {α : Type} (m : List (String × α)) (k : String)
    (h : (mget m k).isSome) : k ∈ m.map Prod.fst := by
  by_contra hmem
  rw [mget_eq_none_of_not_mem_keys m k hmem] at h
  simp at h

theorem mget_mem {α : Type} (m : List (String × α)) (k : String) (v : α)
    (h : mget m k = some v) : (k, v) ∈ m := by
  induction m with
  | nil => simp [mget] at h
  | cons p rest ih =>
    obtain ⟨k0, v0⟩ := p
    by_cases h0 : k0 = k
    · subst h0
      simp [mget] at h
      simp [h]
    · simp [mget, h0] at h
      exact List.mem_cons_of_mem _ (ih h)

theorem keys_mset {α : Type} (m : List (String × α)) (k : String) (v : α)
    (h : k ∈ m.map Prod.fst) : (mset m k v).map Prod.fst = m.map Prod.fst := by
  induction m with
  | nil => simp at h
  | cons p rest ih =>
    obtain ⟨k0, v0⟩ := p
    by_cases h0 : k0 = k
    · subst h0; simp [mset]
    · simp only [List.map_cons, List.mem_cons] at h
      rcases h with h | h
    
      · exact absurd h.symm h0
      · simp [mset, h0, ih h]

theorem keys_mset_not_mem {α : Type} (m : List (String × α)) (k : String) (v : α)
    (h : k ∉ m.map Prod.fst) : (mset m k v).map Prod.fst = m.map Prod.fst ++ [k] := by
  induction m with
  | nil => simp [mset]
  | cons p rest ih =>
    obtain ⟨k0, v0⟩ := p
    simp only [List.map_cons, List.mem_cons] at h
    push_neg at h
    have h0 : k0 ≠ k := fun hh => h.1 hh.symm
    simp [mset, h0, ih h.2]

theorem nodup_keys_mset {α : Type} (m : List (String × α)) (k : String) (v : α)
    (h : (m.map Prod.fst).Nodup) : ((mset m k v).map Prod.fst).Nodup := by
  by_cases hk : k ∈ m.map Prod.fst
  · rwa [keys_mset m k v hk]
  · rw [keys_mset_not_mem m k v hk]
    rw [List.nodup_append]
    refine ⟨h, List.nodup_singleton k, ?_⟩
    intro a ha hak
    simp only [List.mem_singleton] at hak
    exact hk (hak ▸ ha)

theorem mem_sadd (s : List String) (x y : String) : y ∈ sadd s x ↔ y ∈ s ∨ y = x := by
  unfold sadd
  by_cases h : x ∈ s
  · rw [if_pos (by simpa using h)]
    constructor
    · exact Or.inl
    · rintro (hy | rfl) <;> assumption
  · rw [if_neg (by simpa using h)]
    simp

theorem mhas_iff_mem_keys {α : Type} (m : List (String × α)) (k : String) :
    mhas m k = true ↔ k ∈ m.map Prod.fst := by
  induction m with
  | nil => simp [mhas, mget]
  | cons p rest ih =>
    obtain ⟨k0, v0⟩ := p
    by_cases h0 : k0 = k
    · subst h0; simp [mhas, mget]
    · have h1 : k ≠ k0 := fun hh => h0 hh.symm
      simp only [mhas, mget, h0, if_false, List.map_cons, List.mem_cons] at ih ⊢
      rw [ih]
      simp [h1]

/-! ## DFS state lemmas -/

theorem push_cycle_graph (st : DfsState) (path : List String) (d : String) :
    (push_cycle st path d).graph = st.graph := by
  unfold push_cycle
  dsimp only
  split <;> rfl

theorem push_cycle_keys (st : DfsState) (path : List String) (d : String)
    (h : (st.cycles.map cycle_key).Nodup) :
    ((push_cycle st path d).cycles.map cycle_key).Nodup := by
  unfold push_cycle
  dsimp only
  split
  · exact h
  · next hany =>
    simp only [List.map_append, List.map_cons, List.map_nil]
    rw [List.nodup_append]
    refine ⟨h, List.nodup_singleton _, ?_⟩
    intro a ha hak
    simp only [List.mem_singleton] at hak
    subst hak
    obtain ⟨c, hc, hck⟩ := List.mem_map.mp ha
    simp only [List.any_eq_true, not_exists, not_and] at hany
    exact hany c hc (by rw [beq_iff_eq]; exact hck)

theorem dfs_deps_graph (inc : DependencySpec → Bool) (fuel : Nat)
    (hdfs : ∀ name path st, (dfs inc fuel name path st).graph = st.graph) :
    ∀ (l : List (String × DependencySpec)) (path1 : List String) (st : DfsState),
      (dfs_deps inc fuel path1 l st).graph = st.graph := by
  intro l
  induction l with
  | nil => intro path1 st; unfold dfs_deps; rfl
  | cons p rest ih =>
    intro path1 st
    unfold dfs_deps
    dsimp only
    rw [ih]
    split
    · rfl
    · split
      · split
        · exact hdfs _ _ _
        · split
          · exact push_cycle_graph _ _ _
          · rfl
      · rfl

theorem dfs_graph (inc : DependencySpec → Bool) :
    ∀ (fuel : Nat) (name : String) (path : List String) (st : DfsState),
      (dfs inc fuel name path st).graph = st.graph := by
  intro fuel
  induction fuel with
  | zero => intro name path st; unfold dfs; rfl
  | succ n ih =>
    intro name path st
    unfold dfs
    dsimp only
    split
    · rfl
    · rw [dfs_deps_graph inc n ih]

theorem dfs_deps_keys (inc : DependencySpec → Bool) (fuel : Nat)
    (hdfs : ∀ name path st, (st.cycles.map cycle_key).Nodup →
      ((dfs inc fuel name path st).cycles.map cycle_key).Nodup) :
    ∀ (l : List (String × DependencySpec)) (path1 : List String) (st : DfsState),
      (st.cycles.map cycle_key).Nodup →
      ((dfs_deps inc fuel path1 l st).cycles.map cycle_key).Nodup := by
  intro l
  induction l with
  | nil => intro path1 st h; unfold dfs_deps; exact h
  | cons p rest ih =>
    intro path1 st h
    unfold dfs_deps
    dsimp only
    apply ih
    split
    · exact h
    · split
      · split
        · exact hdfs _ _ _ h
        · split
          · exact push_cycle_keys _ _ _ h
          · exact h
      · exact h

theorem dfs_keys (inc : DependencySpec → Bool) :
    ∀ (fuel : Nat) (name : String) (path : List String) (st : DfsState),
      (st.cycles.map cycle_key).Nodup →
      ((dfs inc fuel name path st).cycles.map cycle_key).Nodup := by
  intro fuel
  induction fuel with
  | zero => intro name path st h; unfold dfs; exact h
  | succ n ih =>
    intro name path st h
    unfold dfs
    dsimp only
    split
    · exact h
    · exact dfs_deps_keys inc n ih _ _ _ h

theorem find_cycles_st_graph (g : DependencyGraph) (inc : DependencySpec → Bool) :
    (find_cycles_st g inc).graph = g := by
  unfold find_cycles_st
  generalize g.nodes.map Prod.fst = names
  suffices h : ∀ st : DfsState, st.graph = g →
      (names.foldl
        (fun st name =>
          if st.visited.contains name then st else dfs inc (g.nodes.length + 1) name [] st)
        st).graph = g by
    exact h ⟨g, [], [], []⟩ rfl
  induction names with
  | nil => intro st hst; exact hst
  | cons x xs ih =>
    intro st hst
    simp only [List.foldl_cons]
    apply ih
    split
    · exact hst
    · rw [dfs_graph]; exact hst

theorem find_cycles_keys (g : DependencyGraph) (inc : DependencySpec → Bool) :
    ((find_cycles g inc).map cycle_key).Nodup := by
  unfold find_cycles find_cycles_st
  generalize g.nodes.map Prod.fst = names
  suffices h : ∀ st : DfsState, (st.cycles.map cycle_key).Nodup →
      (((names.foldl
        (fun st name =>
          if st.visited.contains name then st else dfs inc (g.nodes.length + 1) name [] st)
        st).cycles).map cycle_key).Nodup by
    exact h ⟨g, [], [], []⟩ (by simp)
  induction names with
  | nil => intro st hst; exact hst
  | cons x xs ih =>
    intro st hst
    simp only [List.foldl_cons]
    apply ih
    split
    · exact hst
    · exact dfs_keys inc _ _ _ _ hst

/-! ## Claim C6: cycle deduplication -/

/-- C6: in one `detect_cycles_by_type` call, within each of the two returned
lists no two reported cycles share a dedupe key (the sorted node-name list,
joined) — each distinct node set is reported at most once. -/
theorem detect_cycles_by_type_dedup (g : DependencyGraph) :
    ((g.detect_cycles_by_type.production_cycles.map cycle_key).Nodup) ∧
    ((g.detect_cycles_by_type.dev_cycles.map cycle_key).Nodup) :=
  ⟨find_cycles_keys g _, find_cycles_keys g _⟩

/-! ## Claim C9: the operations leave the graph unchanged -/

/-- C9: topological sort, cycle detection, analysis and serialization leave
the graph (nodes with all their fields, and edges) unchanged, and the
state-threaded runs compute the same results as the pure reads. -/
theorem operations_preserve_graph (g : DependencyGraph) (ed : Bool) :
    (g.topological_sort_st ed).2 = g ∧
    (g.topological_sort_st ed).1 = g.topological_sort ed ∧
    g.detect_cycles_by_type_st.2 = g ∧
    g.detect_cycles_by_type_st.1 = g.detect_cycles_by_type ∧
    (DependencyGraphBuilder.analyze_st g).2 = g ∧
    (DependencyGraphBuilder.analyze_st g).1 = DependencyGraphBuilder.analyze g ∧
    g.toJSON_st.2 = g ∧
    g.toJSON_st.1 = g.toJSON := by
  have h1 := find_cycles_st_graph g fun spec => !(spec.type == DependencyType.dev)
  have hdet2 : g.detect_cycles_by_type_st.2 = g := by
    unfold DependencyGraph.detect_cycles_by_type_st
    dsimp only
    rw [h1, find_cycles_st_graph]
  have hdet1 : g.detect_cycles_by_type_st.1 = g.detect_cycles_by_type := by
    unfold DependencyGraph.detect_cycles_by_type_st DependencyGraph.detect_cycles_by_type
      find_cycles
    dsimp only
    rw [h1]
  refine ⟨rfl, rfl, hdet2, hdet1, ?_, ?_, rfl, rfl⟩
  · unfold DependencyGraphBuilder.analyze_st
    dsimp only
    exact hdet2
  · unfold DependencyGraphBuilder.analyze_st
    dsimp only
    rw [hdet2]
    unfold DependencyGraphBuilder.analyze
    dsimp only
    rw [← hdet1]

/-! ## Claim C8: unknown-name queries -/

/-- C8: on a well-formed graph, a name with no node yields `none` from
`get_node`, and empty results (never an error) from `get_dependents` and
`get_dependencies`. -/
theorem unknown_name_queries (g : DependencyGraph) (hwf : wf_graph g) (n : String)
    (h : mhas g.nodes n = false) :
    g.get_node n = none ∧ g.get_dependents n = [] ∧ g.get_dependencies n = [] := by
  have hn : mget g.nodes n = none := by
    cases hmg : mget g.nodes n with
    | none => rfl
    | some v => rw [mhas, hmg] at h; simp at h
  refine ⟨hn, ?_, by simp [DependencyGraph.get_dependencies, hn]⟩
  have hmem : n ∉ g.nodes.map Prod.fst := by
    rw [← mhas_iff_mem_keys]
    simp [h]
  have hmem2 : n ∉ g.edges.map Prod.fst := hwf.2.2 ▸ hmem
  simp [DependencyGraph.get_dependents, mget_eq_none_of_not_mem_keys _ _ hmem2]

/-- Witness for C8 at a one-node graph and the absent name `"ext"`. -/
theorem unknown_name_queries_witness :
    (DependencyGraph.mk [("a", DependencyNode.mk "a" "1.0.0" [] [] true)]
        [("a", [])]).get_node "ext" = none ∧
    (DependencyGraph.mk [("a", DependencyNode.mk "a" "1.0.0" [] [] true)]
        [("a", [])]).get_dependents "ext" = [] ∧
    (DependencyGraph.mk [("a", DependencyNode.mk "a" "1.0.0" [] [] true)]
        [("a", [])]).get_dependencies "ext" = [] :=
  unknown_name_queries _ (by decide) "ext" (by decide)

/-! ## Claim C2: section-merge precedence in `init_from_repos` -/

theorem foldl_mset_lookup (l : List (String × String)) (f : String × String → DependencySpec)
    (init : List (String × DependencySpec)) (d : String) (hnd : (l.map Prod.fst).Nodup) :
    mget (l.foldl (fun m p => mset m p.1 (f p)) init) d =
      match l.find? (fun p => p.1 == d) with
      | some p => some (f p)
      | none => mget init d := by
  induction l generalizing init with
  | nil => simp
  | cons p rest ih =>
    simp only [List.map_cons, List.nodup_cons] at hnd
    simp only [List.foldl_cons, List.find?_cons]
    by_cases hd : p.1 = d
    · have hbeq : (p.1 == d) = true := by rw [beq_iff_eq]; exact hd
      rw [hbeq]
      rw [ih _ hnd.2]
      have hrest : rest.find? (fun q => q.1 == d) = none := by
        rw [List.find?_eq_none]
        intro q hq
        rw [beq_iff_eq]
        intro hqd
        exact hnd.1 (by rw [hd, ← hqd]; exact List.mem_map_of_mem Prod.fst hq)
      rw [hrest, mget_mset]
      simp [hd]
    · have hbeq : (p.1 == d) = false := by rw [beq_eq_false_iff_ne]; exact hd
      rw [hbeq]
      rw [ih _ hnd.2, mget_mset]
      simp [hd]

theorem foldl_cond_mset_lookup (l : List (String × String))
    (f : String × String → DependencySpec)
    (init : List (String × DependencySpec)) (d : String) (hnd : (l.map Prod.fst).Nodup) :
    mget (l.foldl (fun m p => if mhas m p.1 then m else mset m p.1 (f p)) init) d =
      match mget init d with
      | some v => some v
      | none => (l.find? (fun p => p.1 == d)).map f := by
  induction l generalizing init with
  | nil => cases h : mget init d <;> simp [h]
  | cons p rest ih =>
    simp only [List.map_cons, List.nodup_cons] at hnd
    simp only [List.foldl_cons, List.find?_cons]
    rw [ih _ hnd.2]
    by_cases hd : p.1 = d
    · have hbeq : (p.1 == d) = true := by rw [beq_iff_eq]; exact hd
      rw [hbeq]
      have hrest : rest.find? (fun q => q.1 == d) = none := by
        rw [List.find?_eq_none]
        intro q hq
        rw [beq_iff_eq]
        intro hqd
        exact hnd.1 (by rw [hd, ← hqd]; exact List.mem_map_of_mem Prod.fst hq)
      cases hmi : mget init d with
      | some v =>
        have : mhas init p.1 = true := by rw [mhas, hd, hmi]; rfl
        rw [if_pos this, hmi]
      | none =>
        have : mhas init p.1 = false := by rw [mhas, hd, hmi]; rfl
        rw [if_neg (by simp [this]), mget_mset]
        simp [hd, hrest]
    · have hbeq : (p.1 == d) = false := by rw [beq_eq_false_iff_ne]; exact hd
      rw [hbeq]
      have hsame : mget (if mhas init p.1 = true then init else mset init p.1 (f p)) d
          = mget init d := by
        by_cases hp : mhas init p.1 = true
        · rw [if_pos hp]
        · rw [if_neg hp, mget_mset, if_neg hd]
      rw [hsame]

theorem nodup_keys_foldl_mset (l : List (String × String)) (f : String × String → DependencySpec)
    (init : List (String × DependencySpec)) (h : (init.map Prod.fst).Nodup) :
    (((l.foldl (fun m p => mset m p.1 (f p)) init)).map Prod.fst).Nodup := by
  induction l generalizing init with
  | nil => exact h
  | cons p rest ih =>
    simp only [List.foldl_cons]
    exact ih _ (nodup_keys_mset _ _ _ h)

theorem nodup_keys_foldl_cond_mset (l : List (String × String))
    (f : String × String → DependencySpec)
    (init : List (String × DependencySpec)) (h : (init.map Prod.fst).Nodup) :
    (((l.foldl (fun m p => if mhas m p.1 then m else mset m p.1 (f p)) init)).map Prod.fst).Nodup := by
  induction l generalizing init with
  | nil => exact h
  | cons p rest ih =>
    simp only [List.foldl_cons]
    apply ih
    split
    · exact h
    · exact nodup_keys_mset _ _ _ h

/-- C2 counterexample: on the code, a name listed under both `dependencies`
and `peerDependencies` ends with type `peer` and the peer range — not type
`prod` with the production range as the claim states. -/
theorem merge_prod_peer_counterexample :
    mget ((DependencyGraph.init_from_repos [c2_repo]).get_dependencies "x") "y" =
      some ⟨DependencyType.peer, "2.0.0", none⟩ ∧
    ¬ (∃ v, mget ((DependencyGraph.init_from_repos [c2_repo]).get_dependencies "x") "y" =
      some ⟨DependencyType.prod, v, none⟩) := by
  constructor
  · decide
  · intro ⟨v, hv⟩
    rw [show mget ((DependencyGraph.init_from_repos [c2_repo]).get_dependencies "x") "y" =
      some ⟨DependencyType.peer, "2.0.0", none⟩ from by decide] at hv
    simp at hv

/-- C2 amended: the merged per-node mapping has exactly one entry per
dependency name; prod and peer both take precedence over dev (dev is
inserted only when the name is absent), but between prod and peer the
peer insertion comes last and overwrites: a name under `peerDependencies`
ends with type `peer` and the peer range, otherwise a name under
`dependencies` ends with type `prod` and the production range, otherwise
a dev entry is used. -/
theorem merge_precedence_amended (repo : LocalRepo)
    (hprod : ((repo.library.package_json.dependencies.getD []).map Prod.fst).Nodup)
    (hpeer : ((repo.library.package_json.peerDependencies.getD []).map Prod.fst).Nodup)
    (hdev : ((repo.library.package_json.devDependencies.getD []).map Prod.fst).Nodup)
    (d : String) :
    (((mk_node repo).dependencies.map Prod.fst).Nodup) ∧
    mget (mk_node repo).dependencies d =
      match (repo.library.package_json.peerDependencies.getD []).find? (fun p => p.1 == d) with
      | some p => some ⟨DependencyType.peer, p.2, none⟩
      | none =>
        match (repo.library.package_json.dependencies.getD []).find? (fun p => p.1 == d) with
        | some p => some ⟨DependencyType.prod, p.2, none⟩
        | none =>
          ((repo.library.package_json.devDependencies.getD []).find? (fun p => p.1 == d)).map
            (fun p => ⟨DependencyType.dev, p.2, none⟩) := by
  unfold mk_node
  dsimp only
  constructor
  · exact nodup_keys_foldl_cond_mset _ _ _
      (nodup_keys_foldl_mset _ _ _ (nodup_keys_foldl_mset _ _ _ (by simp)))
  · rw [foldl_cond_mset_lookup _ _ _ _ hdev, foldl_mset_lookup _ _ _ _ hpeer,
      foldl_mset_lookup _ _ _ _ hprod]
    cases hpeerf : (repo.library.package_json.peerDependencies.getD []).find?
        (fun p => p.1 == d) with
    | some p => simp [mget]
    | none =>
      cases hprodf : (repo.library.package_json.dependencies.getD []).find?
          (fun p => p.1 == d) with
      | some p => simp [mget]
      | none =>
        cases hdevf : (repo.library.package_json.devDependencies.getD []).find?
            (fun p => p.1 == d) with
        | some p => simp [mget]
        | none => simp [mget]

/-- Witness for the amended C2 at the prod/peer-overlap repo. -/
theorem merge_precedence_amended_witness :
    (((mk_node c2_repo).dependencies.map Prod.fst).Nodup) ∧
    mget (mk_node c2_repo).dependencies "y" = some ⟨DependencyType.peer, "2.0.0", none⟩ :=
  have h := merge_precedence_amended c2_repo (by decide) (by decide) (by decide) "y"
  ⟨h.1, h.2.trans (by decide)⟩

/-! ## Preservation lemmas for the two construction passes -/

theorem add_edge_keys (g : DependencyGraph) (d fr : String) :
    (add_edge g d fr).nodes.map Prod.fst = g.nodes.map Prod.fst ∧
    (add_edge g d fr).edges.map Prod.fst = g.edges.map Prod.fst := by
  unfold add_edge
  cases hnd : mget g.nodes d with
  | none => exact ⟨rfl, rfl⟩
  | some dn =>
    constructor
    · exact keys_mset _ _ _ (mem_keys_of_mget_isSome _ _ (by rw [hnd]; rfl))
    · dsimp only
      cases hed : mget g.edges d with
      | none => rfl
      | some s => exact keys_mset _ _ _ (mem_keys_of_mget_isSome _ _ (by rw [hed]; rfl))

theorem add_edge_core (g : DependencyGraph) (d fr : String) (x : String) :
    (mget (add_edge g d fr).nodes x).map node_core = (mget g.nodes x).map node_core := by
  unfold add_edge
  cases hnd : mget g.nodes d with
  | none => rfl
  | some dn =>
    dsimp only
    rw [mget_mset]
    by_cases hdx : d = x
    · subst hdx
      rw [if_pos rfl, hnd]
      rfl
    · rw [if_neg hdx]

theorem foldl_add_edge_pres (deps : List (String × DependencySpec)) (fr : String) :
    ∀ g : DependencyGraph,
      ((deps.foldl (fun g2 p => add_edge g2 p.1 fr) g).nodes.map Prod.fst
        = g.nodes.map Prod.fst) ∧
      ((deps.foldl (fun g2 p => add_edge g2 p.1 fr) g).edges.map Prod.fst
        = g.edges.map Prod.fst) ∧
      (∀ x, (mget (deps.foldl (fun g2 p => add_edge g2 p.1 fr) g).nodes x).map node_core
        = (mget g.nodes x).map node_core) := by
  induction deps with
  | nil => exact fun g => ⟨rfl, rfl, fun x => rfl⟩
  | cons p rest ih =>
    intro g
    simp only [List.foldl_cons]
    obtain ⟨h1, h2, h3⟩ := ih (add_edge g p.1 fr)
    obtain ⟨k1, k2⟩ := add_edge_keys g p.1 fr
    exact ⟨h1.trans k1, h2.trans k2, fun x => (h3 x).trans (add_edge_core g p.1 fr x)⟩

theorem pass2_fold_pres (names : List String) :
    ∀ g : DependencyGraph,
      ((names.foldl
          (fun g n =>
            match mget g.nodes n with
            | none => g
            | some node => node.dependencies.foldl (fun g2 p => add_edge g2 p.1 node.name) g)
          g).nodes.map Prod.fst = g.nodes.map Prod.fst) ∧
      ((names.foldl
          (fun g n =>
            match mget g.nodes n with
            | none => g
            | some node => node.dependencies.foldl (fun g2 p => add_edge g2 p.1 node.name) g)
          g).edges.map Prod.fst = g.edges.map Prod.fst) ∧
      (∀ x, (mget (names.foldl
          (fun g n =>
            match mget g.nodes n with
            | none => g
            | some node => node.dependencies.foldl (fun g2 p => add_edge g2 p.1 node.name) g)
          g).nodes x).map node_core = (mget g.nodes x).map node_core) := by
  induction names with
  | nil => exact fun g => ⟨rfl, rfl, fun x => rfl⟩
  | cons n rest ih =>
    intro g
    simp only [List.foldl_cons]
    cases hn : mget g.nodes n with
    | none => exact ih g
    | some node =>
      obtain ⟨h1, h2, h3⟩ := ih (node.dependencies.foldl (fun g2 p => add_edge g2 p.1 node.name) g)
      obtain ⟨k1, k2, k3⟩ := foldl_add_edge_pres node.dependencies node.name g
      exact ⟨h1.trans k1, h2.trans k2, fun x => (h3 x).trans (k3 x)⟩

theorem pass2_pres (g0 : DependencyGraph) :
    ((pass2 g0).nodes.map Prod.fst = g0.nodes.map Prod.fst) ∧
    ((pass2 g0).edges.map Prod.fst = g0.edges.map Prod.fst) ∧
    (∀ x, (mget (pass2 g0).nodes x).map node_core = (mget g0.nodes x).map node_core) :=
  pass2_fold_pres (g0.nodes.map Prod.fst) g0

/-! ## Pass-1 lookup lemmas -/

theorem pass1_fold_untouched (repos : List LocalRepo) (x : String)
    (hx : x ∉ repos.map fun r => r.library.name) :
    ∀ g : DependencyGraph,
      mget (repos.foldl
        (fun g repo =>
          { nodes := mset g.nodes repo.library.name (mk_node repo)
            edges := mset g.edges repo.library.name [] })
        g).nodes x = mget g.nodes x ∧
      mget (repos.foldl
        (fun g repo =>
          { nodes := mset g.nodes repo.library.name (mk_node repo)
            edges := mset g.edges repo.library.name [] })
        g).edges x = mget g.edges x := by
  induction repos with
  | nil => exact fun g => ⟨rfl, rfl⟩
  | cons r rest ih =>
    intro g
    simp only [List.map_cons, List.mem_cons] at hx
    push_neg at hx
    simp only [List.foldl_cons]
    obtain ⟨h1, h2⟩ := ih hx.2 ⟨mset g.nodes r.library.name (mk_node r),
      mset g.edges r.library.name []⟩
    refine ⟨h1.trans ?_, h2.trans ?_⟩
    · rw [mget_mset, if_neg (fun h => hx.1 h.symm)]
    · rw [mget_mset, if_neg (fun h => hx.1 h.symm)]

theorem pass1_fold_lookup (repos : List LocalRepo)
    (hnd : (repos.map fun r => r.library.name).Nodup)
    (repo : LocalRepo) (hmem : repo ∈ repos) :
    ∀ g : DependencyGraph,
      mget (repos.foldl
        (fun g repo =>
          { nodes := mset g.nodes repo.library.name (mk_node repo)
            edges := mset g.edges repo.library.name [] })
        g).nodes repo.library.name = some (mk_node repo) := by
  induction repos with
  | nil => exact absurd hmem (List.not_mem_nil repo)
  | cons r rest ih =>
    intro g
    simp only [List.map_cons, List.nodup_cons] at hnd
    simp only [List.foldl_cons]
    rcases List.mem_cons.mp hmem with rfl | hmem2
    · have hx : repo.library.name ∉ rest.map fun r2 => r2.library.name := hnd.1
      rw [(pass1_fold_untouched rest repo.library.name hx _).1]
      rw [mget_mset, if_pos rfl]
    · exact ih hnd.2 hmem2 _

/-! ## Claim C10: missing/empty versions default to "0.0.0" -/

/-- C10: when a repo's manifest version is missing or empty,
`init_from_repos` still creates the node and its version is the literal
`"0.0.0"`. -/
theorem missing_version_defaults (repos : List LocalRepo)
    (hnd : (repos.map fun r => r.library.name).Nodup)
    (repo : LocalRepo) (hmem : repo ∈ repos)
    (hv : repo.library.package_json.version = none ∨
      repo.library.package_json.version = some "") :
    ∃ node, mget (DependencyGraph.init_from_repos repos).nodes repo.library.name = some node ∧
      node.version = "0.0.0" := by
  have hp1 : mget (pass1 repos).nodes repo.library.name = some (mk_node repo) :=
    pass1_fold_lookup repos hnd repo hmem ⟨[], []⟩
  have hc := (pass2_pres (pass1 repos)).2.2 repo.library.name
  rw [hp1] at hc
  unfold DependencyGraph.init_from_repos
  cases hinit : mget (pass2 (pass1 repos)).nodes repo.library.name with
  | none => rw [hinit] at hc; simp at hc
  | some node =>
    rw [hinit] at hc
    have hcc : node_core node = node_core (mk_node repo) := by
      simpa using hc
    refine ⟨node, rfl, ?_⟩
    have hver : node.version = (mk_node repo).version := by
      have := congrArg (fun t => t.2.1) hcc
      exact this
    rw [hver]
    unfold mk_node
    dsimp only
    rcases hv with hv | hv <;> simp [hv]

/-- Witness for C10: a single repo with an absent manifest version. -/
theorem missing_version_defaults_witness :
    ∃ node,
      mget (DependencyGraph.init_from_repos
        [⟨⟨"v", ⟨none, none, none, none, none⟩⟩⟩]).nodes "v" = some node ∧
      node.version = "0.0.0" :=
  missing_version_defaults [⟨⟨"v", ⟨none, none, none, none, none⟩⟩⟩] (by decide)
    ⟨⟨"v", ⟨none, none, none, none, none⟩⟩⟩ (by decide) (Or.inl rfl)

/-! ## More association-list helpers -/

theorem mget_of_mem_nodup {α : Type} (m : List (String × α)) (k : String) (v : α)
    (hnd : (m.map Prod.fst).Nodup) (hmem : (k, v) ∈ m) : mget m k = some v := by
  induction m with
  | nil => simp at hmem
  | cons p rest ih =>
    simp only [List.map_cons, List.nodup_cons] at hnd
    rcases List.mem_cons.mp hmem with rfl | hmem2
    · simp [mget]
    · have hk : p.1 ≠ k := by
        intro h
        exact hnd.1 (h ▸ List.mem_map_of_mem Prod.fst hmem2)
      simp only [mget]
      rw [if_neg hk]
      exact ih hnd.2 hmem2

theorem mhas_iff_exists {α : Type} (m : List (String × α)) (k : String) :
    mhas m k = true ↔ ∃ q ∈ m, q.1 = k := by
  rw [mhas_iff_mem_keys]
  simp [List.mem_map]

theorem mem_mset {α : Type} (m : List (String × α)) (k : String) (v : α) (p : String × α)
    (h : p ∈ mset m k v) : p ∈ m ∨ p = (k, v) := by
  induction m with
  | nil => simp [mset] at h; exact Or.inr h
  | cons q rest ih =>
    simp only [mset] at h
    by_cases hq : q.1 = k
    · obtain ⟨q1, q2⟩ := q
      simp only at hq
      rw [if_pos hq] at h
      rcases List.mem_cons.mp h with rfl | h2
      · exact Or.inr rfl
      · exact Or.inl (List.mem_cons_of_mem _ h2)
    · obtain ⟨q1, q2⟩ := q
      simp only at hq
      rw [if_neg hq] at h
      rcases List.mem_cons.mp h with rfl | h2
      · exact Or.inl (List.mem_cons_self _ _)
      · rcases ih h2 with h3 | h3
        · exact Or.inl (List.mem_cons_of_mem _ h3)
        · exact Or.inr h3

/-! ## Claim C7: analyze flags -/

/-- C7: `analyze` reports as `wildcard_deps` exactly the (node, dependency,
version) triples whose spec version is the literal `"*"` (any type), and as
`missing_peers` exactly the (node, dependency) pairs whose spec has type
`peer` and whose target has no node. -/
theorem analyze_flags (g : DependencyGraph) (p d v : String) :
    ((p, d, v) ∈ (DependencyGraphBuilder.analyze g).wildcard_deps ↔
      ∃ pr ∈ g.nodes, pr.2.name = p ∧
        ∃ q ∈ pr.2.dependencies, q.1 = d ∧ q.2.version = "*" ∧ v = "*") ∧
    ((p, d) ∈ (DependencyGraphBuilder.analyze g).missing_peers ↔
      ∃ pr ∈ g.nodes, pr.2.name = p ∧
        ∃ q ∈ pr.2.dependencies, q.1 = d ∧ q.2.type = DependencyType.peer ∧
          mhas g.nodes q.1 = false) := by
  constructor
  · unfold DependencyGraphBuilder.analyze
    dsimp only
    rw [List.mem_flatMap]
    constructor
    · rintro ⟨pr, hpr, hmem⟩
      rw [List.mem_map] at hmem
      obtain ⟨q, hq, heq⟩ := hmem
      rw [List.mem_filter] at hq
      have h1 : pr.2.name = p := congrArg Prod.fst heq
      have h2 : q.1 = d := congrArg (fun t => t.2.1) heq
      have h3 : q.2.version = v := congrArg (fun t => t.2.2) heq
      exact ⟨pr, hpr, h1, q, hq.1, h2, beq_iff_eq.mp hq.2,
        by rw [← h3]; exact beq_iff_eq.mp hq.2⟩
    · rintro ⟨pr, hpr, hname, q, hq, hqd, hver, hv⟩
      refine ⟨pr, hpr, ?_⟩
      rw [List.mem_map]
      refine ⟨q, List.mem_filter.mpr ⟨hq, by rw [beq_iff_eq]; exact hver⟩, ?_⟩
      rw [hname, hqd, hver, hv]
  · unfold DependencyGraphBuilder.analyze
    dsimp only
    rw [List.mem_flatMap]
    constructor
    · rintro ⟨pr, hpr, hmem⟩
      rw [List.mem_map] at hmem
      obtain ⟨q, hq, heq⟩ := hmem
      rw [List.mem_filter] at hq
      have hcond := hq.2
      rw [Bool.and_eq_true] at hcond
      have h1 : pr.2.name = p := congrArg Prod.fst heq
      have h2 : q.1 = d := congrArg (fun t => t.2) heq
      exact ⟨pr, hpr, h1, q, hq.1, h2, beq_iff_eq.mp hcond.1,
        by simpa using hcond.2⟩
    · rintro ⟨pr, hpr, hname, q, hq, hqd, htype, hmiss⟩
      refine ⟨pr, hpr, ?_⟩
      rw [List.mem_map]
      refine ⟨q, List.mem_filter.mpr ⟨hq, ?_⟩, ?_⟩
      · rw [Bool.and_eq_true]
        exact ⟨by rw [beq_iff_eq]; exact htype, by rw [hmiss]; rfl⟩
      · rw [hname, hqd]

/-! ## Structural facts about pass 1 -/

theorem pass1_fold_inv (repos : List LocalRepo) :
    ∀ g : DependencyGraph,
      ((g.nodes.map Prod.fst).Nodup →
        (g.edges.map Prod.fst = g.nodes.map Prod.fst) →
        (∀ n, mget g.edges n = none ∨ mget g.edges n = some []) →
        (∀ p ∈ g.nodes, p.2.name = p.1) →
        (((repos.foldl
            (fun g repo =>
              { nodes := mset g.nodes repo.library.name (mk_node repo)
                edges := mset g.edges repo.library.name [] })
            g).nodes.map Prod.fst).Nodup ∧
        ((repos.foldl
            (fun g repo =>
              { nodes := mset g.nodes repo.library.name (mk_node repo)
                edges := mset g.edges repo.library.name [] })
            g).edges.map Prod.fst = (repos.foldl
            (fun g repo =>
              { nodes := mset g.nodes repo.library.name (mk_node repo)
                edges := mset g.edges repo.library.name [] })
            g).nodes.map Prod.fst) ∧
        (∀ n, mget (repos.foldl
            (fun g repo =>
              { nodes := mset g.nodes repo.library.name (mk_node repo)
                edges := mset g.edges repo.library.name [] })
            g).edges n = none ∨ mget (repos.foldl
            (fun g repo =>
              { nodes := mset g.nodes repo.library.name (mk_node repo)
                edges := mset g.edges repo.library.name [] })
            g).edges n = some []) ∧
        (∀ p ∈ (repos.foldl
            (fun g repo =>
              { nodes := mset g.nodes repo.library.name (mk_node repo)
                edges := mset g.edges repo.library.name [] })
            g).nodes, p.2.name = p.1))) := by
  induction repos with
  | nil => exact fun g h1 h2 h3 h4 => ⟨h1, h2.symm ▸ rfl, h3, h4⟩
  | cons r rest ih =>
    intro g h1 h2 h3 h4
    simp only [List.foldl_cons]
    apply ih
    · exact nodup_keys_mset _ _ _ h1
    · by_cases hmem : r.library.name ∈ g.nodes.map Prod.fst
      · rw [keys_mset _ _ _ hmem, keys_mset _ _ _ (h2 ▸ hmem)]
        exact h2
      · rw [keys_mset_not_mem _ _ _ hmem, keys_mset_not_mem _ _ _ (fun hc => hmem (h2 ▸ hc))]
        rw [h2]
    · intro n
      dsimp only
      rw [mget_mset]
      by_cases hn : r.library.name = n
      · rw [if_pos hn]
        exact Or.inr rfl
      · rw [if_neg hn]
        exact h3 n
    · intro p hp
      rcases mem_mset _ _ _ _ hp with hp2 | hp2
      · exact h4 p hp2
      · subst hp2
        rfl

theorem pass1_facts (repos : List LocalRepo) :
    (((pass1 repos).nodes.map Prod.fst).Nodup) ∧
    ((pass1 repos).edges.map Prod.fst = (pass1 repos).nodes.map Prod.fst) ∧
    (∀ n, mget (pass1 repos).edges n = none ∨ mget (pass1 repos).edges n = some []) ∧
    (∀ p ∈ (pass1 repos).nodes, p.2.name = p.1) :=
  pass1_fold_inv repos ⟨[], []⟩ (by simp) rfl (fun n => Or.inl rfl) (by simp)

theorem pass1_fold_value (repos : List LocalRepo) (y : String) (v : DependencyNode) :
    ∀ g : DependencyGraph,
      mget (repos.foldl
        (fun g repo =>
          { nodes := mset g.nodes repo.library.name (mk_node repo)
            edges := mset g.edges repo.library.name [] })
        g).nodes y = some v →
      (∃ repo ∈ repos, repo.library.name = y ∧ v = mk_node repo) ∨ mget g.nodes y = some v := by
  induction repos with
  | nil => exact fun g h => Or.inr h
  | cons r rest ih =>
    intro g h
    simp only [List.foldl_cons] at h
    rcases ih _ h with h2 | h2
    · obtain ⟨repo, hrepo, hname, hval⟩ := h2
      exact Or.inl ⟨repo, List.mem_cons_of_mem _ hrepo, hname, hval⟩
    · dsimp only at h2
      rw [mget_mset] at h2
      by_cases hy : r.library.name = y
      · rw [if_pos hy] at h2
        exact Or.inl ⟨r, List.mem_cons_self _ _, hy, (Option.some_inj.mp h2).symm⟩
      · rw [if_neg hy] at h2
        exact Or.inr h2

/-- Every node of `init_from_repos` carries the dependency mapping merged
from some input repo's manifest. -/
theorem init_nodes_from_repos (repos : List LocalRepo) (y : String) (node : DependencyNode)
    (h : mget (DependencyGraph.init_from_repos repos).nodes y = some node) :
    ∃ repo ∈ repos, repo.library.name = y ∧ node.dependencies = (mk_node repo).dependencies := by
  have hc := (pass2_pres (pass1 repos)).2.2 y
  rw [show pass2 (pass1 repos) = DependencyGraph.init_from_repos repos from rfl, h] at hc
  cases hp : mget (pass1 repos).nodes y with
  | none => rw [hp] at hc; simp at hc
  | some n0 =>
    rw [hp] at hc
    have hcc : node_core node = node_core n0 := by simpa using hc
    rcases pass1_fold_value repos y n0 ⟨[], []⟩ hp with h2 | h2
    · obtain ⟨repo, hrepo, hname, hval⟩ := h2
      refine ⟨repo, hrepo, hname, ?_⟩
      have hdeps : node.dependencies = n0.dependencies := congrArg (fun t => t.2.2.1) hcc
      rw [hdeps, hval]
    · simp [mget] at h2

/-- `init_from_repos` produces a well-formed graph. -/
theorem init_wf (repos : List LocalRepo) : wf_graph (DependencyGraph.init_from_repos repos) := by
  obtain ⟨hnd, hkeys, hempty, hname⟩ := pass1_facts repos
  obtain ⟨k1, k2, k3⟩ := pass2_pres (pass1 repos)
  have hinit : DependencyGraph.init_from_repos repos = pass2 (pass1 repos) := rfl
  refine ⟨?_, ?_, ?_⟩
  · rw [hinit, k1]
    exact hnd
  · intro p hp
    rw [hinit] at hp
    have h1 : mget (pass2 (pass1 repos)).nodes p.1 = some p.2 :=
      mget_of_mem_nodup _ _ _ (by rw [k1]; exact hnd) hp
    have hc := k3 p.1
    rw [h1] at hc
    cases hp1 : mget (pass1 repos).nodes p.1 with
    | none => rw [hp1] at hc; simp at hc
    | some n0 =>
      rw [hp1] at hc
      have hcc : node_core p.2 = node_core n0 := by simpa using hc
      have h2 : p.2.name = n0.name := congrArg (fun t => t.1) hcc
      rw [h2]
      exact hname (p.1, n0) (mget_mem _ _ _ hp1)
  · rw [hinit, k1, k2, hkeys]

/-! ## Membership in the reverse edges built by pass 2 -/

theorem mget_isSome_of_mem_keys {α : Type} (m : List (String × α)) (k : String)
    (h : k ∈ m.map Prod.fst) : (mget m k).isSome := by
  rw [show (mget m k).isSome = mhas m k from rfl, mhas_iff_mem_keys]
  exact h

theorem add_edge_edges_mem (g : DependencyGraph) (d fr n x : String)
    (hkeys : g.edges.map Prod.fst = g.nodes.map Prod.fst) :
    x ∈ (mget (add_edge g d fr).edges n).getD [] ↔
      x ∈ (mget g.edges n).getD [] ∨ (d = n ∧ mhas g.nodes d = true ∧ x = fr) := by
  unfold add_edge
  cases hnd : mget g.nodes d with
  | none =>
    have : mhas g.nodes d = false := by rw [mhas, hnd]; rfl
    simp [this]
  | some dn =>
    have hmh : mhas g.nodes d = true := by rw [mhas, hnd]; rfl
    have hd_edges : d ∈ g.edges.map Prod.fst :=
      hkeys ▸ mem_keys_of_mget_isSome _ _ (by rw [hnd]; rfl)
    dsimp only
    cases hed : mget g.edges d with
    | none =>
      have := mget_isSome_of_mem_keys _ _ hd_edges
      rw [hed] at this
      simp at this
    | some s =>
      rw [mget_mset]
      by_cases hdn : d = n
      · subst hdn
        rw [if_pos rfl, hed]
        simp only [Option.getD_some]
        rw [mem_sadd]
        constructor
        · rintro (h | h)
          · exact Or.inl h
          · exact Or.inr ⟨by trivial, hmh, h⟩
        · rintro (h | ⟨-, -, h⟩)
          · exact Or.inl h
          · exact Or.inr h
      · rw [if_neg hdn]
        constructor
        · exact Or.inl
        · rintro (h | ⟨h, -, -⟩)
          · exact h
          · exact absurd h hdn

theorem foldl_add_edge_mem (deps : List (String × DependencySpec)) (fr n x : String) :
    ∀ g : DependencyGraph, g.edges.map Prod.fst = g.nodes.map Prod.fst →
      (x ∈ (mget ((deps.foldl (fun g2 p => add_edge g2 p.1 fr) g)).edges n).getD [] ↔
        x ∈ (mget g.edges n).getD [] ∨
          (mhas g.nodes n = true ∧ x = fr ∧ ∃ q ∈ deps, q.1 = n)) := by
  induction deps with
  | nil =>
    intro g hkeys
    simp
  | cons p rest ih =>
    intro g hkeys
    simp only [List.foldl_cons]
    obtain ⟨a1, a2⟩ := add_edge_keys g p.1 fr
    have hkeys2 : (add_edge g p.1 fr).edges.map Prod.fst
        = (add_edge g p.1 fr).nodes.map Prod.fst := by rw [a1, a2, hkeys]
    rw [ih _ hkeys2, add_edge_edges_mem g p.1 fr n x hkeys]
    have hmh : mhas (add_edge g p.1 fr).nodes n = mhas g.nodes n := by
      have hiff : mhas (add_edge g p.1 fr).nodes n = true ↔ mhas g.nodes n = true := by
        rw [mhas_iff_mem_keys, mhas_iff_mem_keys, a1]
      exact Bool.eq_iff_iff.mpr hiff
    rw [hmh]
    constructor
    · rintro ((h | ⟨h1, h2, h3⟩) | ⟨h1, h2, h3⟩)
      · exact Or.inl h
      · exact Or.inr ⟨by rw [← h1]; exact h2, h3, ⟨p, List.mem_cons_self _ _, h1⟩⟩
      · obtain ⟨q, hq, hqn⟩ := h3
        exact Or.inr ⟨h1, h2, ⟨q, List.mem_cons_of_mem _ hq, hqn⟩⟩
    · rintro (h | ⟨h1, h2, q, hq, hqn⟩)
      · exact Or.inl (Or.inl h)
      · rcases List.mem_cons.mp hq with rfl | hq2
        · exact Or.inl (Or.inr ⟨hqn, by rw [hqn]; exact h1, h2⟩)
        · exact Or.inr ⟨h1, h2, ⟨q, hq2, hqn⟩⟩

theorem pass2_fold_mem (n x : String) (g0 : DependencyGraph)
    (h0 : g0.edges.map Prod.fst = g0.nodes.map Prod.fst) :
    ∀ (names : List String) (g : DependencyGraph), pass2_inv g g0 →
      (x ∈ (mget (names.foldl
          (fun g m =>
            match mget g.nodes m with
            | none => g
            | some node => node.dependencies.foldl (fun g2 p => add_edge g2 p.1 node.name) g)
          g).edges n).getD [] ↔
        x ∈ (mget g.edges n).getD [] ∨
          (mhas g0.nodes n = true ∧ ∃ m ∈ names, ∃ node, mget g0.nodes m = some node ∧
            node.name = x ∧ mhas node.dependencies n = true)) := by
  intro names
  induction names with
  | nil =>
    intro g hinv
    simp
  | cons m rest ih =>
    intro g hinv
    obtain ⟨i1, i2, i3⟩ := hinv
    simp only [List.foldl_cons]
    cases hm : mget g.nodes m with
    | none =>
      have hm0 : mget g0.nodes m = none := by
        have hcm := i3 m
        rw [hm] at hcm
        cases h0m : mget g0.nodes m with
        | none => rfl
        | some nd => rw [h0m] at hcm; simp at hcm
      rw [ih g ⟨i1, i2, i3⟩]
      constructor
      · rintro (h | ⟨h1, m2, hm2, rest2⟩)
        · exact Or.inl h
        · exact Or.inr ⟨h1, m2, List.mem_cons_of_mem _ hm2, rest2⟩
      · rintro (h | ⟨h1, m2, hm2, node2, hnode2, rest2⟩)
        · exact Or.inl h
        · rcases List.mem_cons.mp hm2 with rfl | hm2b
          · rw [hm0] at hnode2
            simp at hnode2
          · exact Or.inr ⟨h1, m2, hm2b, node2, hnode2, rest2⟩
    | some node =>
      have hm0 : ∃ node0, mget g0.nodes m = some node0 ∧ node_core node0 = node_core node := by
        have hcm := i3 m
        rw [hm] at hcm
        cases h0m : mget g0.nodes m with
        | none => rw [h0m] at hcm; simp at hcm
        | some nd =>
          rw [h0m] at hcm
          have hcc : node_core node = node_core nd := by simpa using hcm
          exact ⟨nd, rfl, hcc.symm⟩
      obtain ⟨node0, hnode0, hcore⟩ := hm0
      have hname0 : node0.name = node.name := congrArg (fun t => t.1) hcore
      have hdeps0 : node0.dependencies = node.dependencies :=
        congrArg (fun t => t.2.2.1) hcore
      obtain ⟨k1, k2, k3⟩ :=
        foldl_add_edge_pres node.dependencies node.name g
      have hinv1 : pass2_inv
          (node.dependencies.foldl (fun g2 p => add_edge g2 p.1 node.name) g) g0 :=
        ⟨k1.trans i1, k2.trans i2, fun y => (k3 y).trans (i3 y)⟩
      rw [ih _ hinv1]
      have hkeysg : g.edges.map Prod.fst = g.nodes.map Prod.fst := by
        rw [i1, i2, h0]
      rw [foldl_add_edge_mem node.dependencies node.name n x g hkeysg]
      have hmhas : mhas g.nodes n = mhas g0.nodes n :=
        Bool.eq_iff_iff.mpr (by rw [mhas_iff_mem_keys, mhas_iff_mem_keys, i1])
      constructor
      · rintro ((h | ⟨h1, h2, h3⟩) | ⟨h1, m2, hm2, rest2⟩)
        · exact Or.inl h
        · refine Or.inr ⟨by rw [← hmhas]; exact h1, m, List.mem_cons_self _ _, node0,
            hnode0, by rw [hname0, ← h2], ?_⟩
          rw [mhas_iff_exists, hdeps0]
          exact h3
        · exact Or.inr ⟨h1, m2, List.mem_cons_of_mem _ hm2, rest2⟩
      · rintro (h | ⟨h1, m2, hm2, node2, hnode2, hname2, hdeps2⟩)
        · exact Or.inl (Or.inl h)
        · rcases List.mem_cons.mp hm2 with rfl | hm2b
          · rw [hnode0] at hnode2
            have hnn : node0 = node2 := Option.some_inj.mp hnode2
            subst hnn
            refine Or.inl (Or.inr ⟨by rw [hmhas]; exact h1, by rw [← hname2, hname0], ?_⟩)
            rw [← hdeps0, ← mhas_iff_exists]
            exact hdeps2
          · exact Or.inr ⟨h1, m2, hm2b, node2, hnode2, hname2, hdeps2⟩

/-! ## Claim C5: edges are exactly the internal reverse dependencies -/

/-- C5: after `init_from_repos`, `x ∈ edges[n]` (i.e. `get_dependents n`)
holds exactly when `n` is a graph node and `x` names a graph node whose
dependency mapping contains `n`; an external dependency target has no
edges entry so `get_dependents` of it is empty; and every node keeps the
dependency mapping merged from its repo manifest. -/
theorem init_edges_exact (repos : List LocalRepo) (n x : String) :
    (x ∈ (DependencyGraph.init_from_repos repos).get_dependents n ↔
      mhas (DependencyGraph.init_from_repos repos).nodes n = true ∧
      ∃ p ∈ (DependencyGraph.init_from_repos repos).nodes,
        p.2.name = x ∧ mhas p.2.dependencies n = true) ∧
    (mhas (DependencyGraph.init_from_repos repos).nodes n = false →
      (DependencyGraph.init_from_repos repos).get_dependents n = []) ∧
    (∀ y node, mget (DependencyGraph.init_from_repos repos).nodes y = some node →
      ∃ repo ∈ repos, repo.library.name = y ∧
        node.dependencies = (mk_node repo).dependencies) := by
  obtain ⟨hnd, hkeys, hempty, hname⟩ := pass1_facts repos
  obtain ⟨k1, k2, k3⟩ := pass2_pres (pass1 repos)
  have hinit : DependencyGraph.init_from_repos repos = pass2 (pass1 repos) := rfl
  have hndinit : ((DependencyGraph.init_from_repos repos).nodes.map Prod.fst).Nodup := by
    rw [hinit, k1]
    exact hnd
  have hmhas_init : mhas (DependencyGraph.init_from_repos repos).nodes n
      = mhas (pass1 repos).nodes n :=
    Bool.eq_iff_iff.mpr (by rw [mhas_iff_mem_keys, mhas_iff_mem_keys, hinit, k1])
  refine ⟨?_, ?_, init_nodes_from_repos repos⟩
  · have hpm := pass2_fold_mem n x (pass1 repos) hkeys ((pass1 repos).nodes.map Prod.fst)
      (pass1 repos) ⟨rfl, rfl, fun _ => rfl⟩
    have hbase : x ∈ (mget (pass1 repos).edges n).getD [] ↔ False := by
      rcases hempty n with h | h <;> simp [h]
    rw [hbase] at hpm
    have hpm2 : x ∈ (mget (pass2 (pass1 repos)).edges n).getD [] ↔
        False ∨ (mhas (pass1 repos).nodes n = true ∧
          ∃ m ∈ (pass1 repos).nodes.map Prod.fst,
            ∃ node, mget (pass1 repos).nodes m = some node ∧ node.name = x ∧
              mhas node.dependencies n = true) := hpm
    unfold DependencyGraph.get_dependents
    rw [hinit, hpm2]
    rw [show mhas (pass2 (pass1 repos)).nodes n = mhas (pass1 repos).nodes n from
      Bool.eq_iff_iff.mpr (by rw [mhas_iff_mem_keys, mhas_iff_mem_keys, k1])]
    constructor
    · rintro (h | ⟨h1, m, hm, node, hnode, hna, hdn⟩)
      · exact absurd h id
      · refine ⟨h1, ?_⟩
        have hc := k3 m
        rw [hnode] at hc
        cases hi : mget (pass2 (pass1 repos)).nodes m with
        | none => rw [hi] at hc; simp at hc
        | some node2 =>
          rw [hi] at hc
          have hcc : node_core node2 = node_core node := by simpa using hc
          refine ⟨(m, node2), mget_mem _ _ _ hi, ?_, ?_⟩
          · rw [show node2.name = node.name from congrArg (fun t => t.1) hcc]
            exact hna
          · rw [show node2.dependencies = node.dependencies from
              congrArg (fun t => t.2.2.1) hcc]
            exact hdn
    · rintro ⟨h1, p, hp, hpx, hpn⟩
      refine Or.inr ⟨h1, p.1, ?_, ?_⟩
      · have : p.1 ∈ (pass2 (pass1 repos)).nodes.map Prod.fst :=
          List.mem_map_of_mem Prod.fst hp
        rw [k1] at this
        exact this
      · have hg : mget (pass2 (pass1 repos)).nodes p.1 = some p.2 :=
          mget_of_mem_nodup _ _ _ (by rw [k1]; exact hnd) hp
        have hc := k3 p.1
        rw [hg] at hc
        cases hi : mget (pass1 repos).nodes p.1 with
        | none => rw [hi] at hc; simp at hc
        | some node0 =>
          rw [hi] at hc
          have hcc : node_core p.2 = node_core node0 := by simpa using hc
          refine ⟨node0, rfl, ?_, ?_⟩
          · rw [← show p.2.name = node0.name from congrArg (fun t => t.1) hcc]
            exact hpx
          · rw [← show p.2.dependencies = node0.dependencies from
              congrArg (fun t => t.2.2.1) hcc]
            exact hpn
  · intro h
    have hmem : n ∉ (DependencyGraph.init_from_repos repos).nodes.map Prod.fst := by
      rw [← mhas_iff_mem_keys]
      simp [h]
    have hmem2 : n ∉ (DependencyGraph.init_from_repos repos).edges.map Prod.fst := by
      rw [hinit, k2, hkeys, ← k1, ← hinit]
      exact hmem
    simp [DependencyGraph.get_dependents, mget_eq_none_of_not_mem_keys _ _ hmem2]

/-- Witness for C5 (the spec's scenario D): the external peer target `"ext"`
gets no edge, so its dependents are empty. -/
theorem init_edges_exact_witness :
    (DependencyGraph.init_from_repos
        [⟨⟨"a", ⟨some "1.0.0", none, none, none, some [("ext", "1")]⟩⟩⟩]).get_dependents
      "ext" = [] :=
  (init_edges_exact [⟨⟨"a", ⟨some "1.0.0", none, none, none, some [("ext", "1")]⟩⟩⟩]
    "ext" "a").2.1 (by decide)

/-! ## Lemmas about `find_item` and `remove_id` -/

theorem find_item_none_iff (l : List SortItem) (i : String) :
    find_item l i = none ↔ i ∉ l.map SortItem.id := by
  unfold find_item
  rw [List.find?_eq_none]
  constructor
  · intro h hc
    obtain ⟨it, hit, hid⟩ := List.mem_map.mp hc
    exact h it hit (beq_iff_eq.mpr hid)
  · intro h it hit hb
    exact h (List.mem_map.mpr ⟨it, hit, beq_iff_eq.mp hb⟩)

theorem find_item_isSome_iff (l : List SortItem) (i : String) :
    (find_item l i).isSome = true ↔ i ∈ l.map SortItem.id := by
  constructor
  · intro h
    by_contra hc
    rw [← find_item_none_iff] at hc
    rw [hc] at h
    simp at h
  · intro h
    cases hf : find_item l i with
    | some _ => rfl
    | none => exact absurd ((find_item_none_iff l i).mp hf) (not_not.mpr h)

theorem find_item_some (l : List SortItem) (i : String) (it : SortItem)
    (h : find_item l i = some it) : it ∈ l ∧ it.id = i := by
  unfold find_item at h
  have hp := List.find?_some h
  exact ⟨List.mem_of_find?_eq_some h, beq_iff_eq.mp hp⟩

theorem id_inj (l : List SortItem) (hnd : (l.map SortItem.id).Nodup)
    (a b : SortItem) (ha : a ∈ l) (hb : b ∈ l) (hid : a.id = b.id) : a = b := by
  induction l with
  | nil => simp at ha
  | cons x xs ih =>
    simp only [List.map_cons, List.nodup_cons] at hnd
    rcases List.mem_cons.mp ha with rfl | ha2
    · rcases List.mem_cons.mp hb with rfl | hb2
      · rfl
      · exact absurd (hid ▸ List.mem_map_of_mem SortItem.id hb2) hnd.1
    · rcases List.mem_cons.mp hb with rfl | hb2
      · exact absurd (hid ▸ List.mem_map_of_mem SortItem.id ha2) hnd.1
      · exact ih hnd.2 ha2 hb2

theorem find_item_of_mem_nodup (l : List SortItem) (hnd : (l.map SortItem.id).Nodup)
    (it : SortItem) (hit : it ∈ l) : find_item l it.id = some it := by
  induction l with
  | nil => simp at hit
  | cons x xs ih =>
    simp only [List.map_cons, List.nodup_cons] at hnd
    unfold find_item
    rw [List.find?_cons]
    rcases List.mem_cons.mp hit with rfl | hit2
    · rw [show (it.id == it.id) = true from beq_iff_eq.mpr rfl]
    · have hx : (x.id == it.id) = false := by
        rw [beq_eq_false_iff_ne]
        intro hc
        exact hnd.1 (hc ▸ List.mem_map_of_mem SortItem.id hit2)
      rw [hx]
      exact ih hnd.2 hit2

theorem find_item_sublist (l items : List SortItem) (hsub : l.Sublist items)
    (hnd : (items.map SortItem.id).Nodup) (a : String) (it : SortItem)
    (h : find_item l a = some it) : find_item items a = some it := by
  obtain ⟨hmem, hid⟩ := find_item_some l a it h
  rw [← hid]
  exact find_item_of_mem_nodup items hnd it (hsub.subset hmem)

theorem remove_id_sublist (l : List SortItem) (i : String) : (remove_id l i).Sublist l := by
  induction l with
  | nil => exact List.Sublist.refl _
  | cons x xs ih =>
    unfold remove_id
    by_cases hx : x.id = i
    · rw [if_pos hx]
      exact List.sublist_cons_self x xs
    · rw [if_neg hx]
      exact ih.cons₂ x

theorem remove_id_perm (l : List SortItem) (hnd : (l.map SortItem.id).Nodup)
    (it : SortItem) (hit : it ∈ l) : l.Perm (it :: remove_id l it.id) := by
  induction l with
  | nil => simp at hit
  | cons x xs ih =>
    simp only [List.map_cons, List.nodup_cons] at hnd
    unfold remove_id
    by_cases hx : x.id = it.id
    · have hxit : x = it :=
        id_inj (x :: xs) (by simp [List.nodup_cons]; exact ⟨fun a ha hc => hnd.1 (hc ▸
          List.mem_map_of_mem SortItem.id ha), hnd.2⟩) x it (List.mem_cons_self _ _) hit hx
      rw [if_pos hx, hxit]
    · rw [if_neg hx]
      have hit2 : it ∈ xs := by
        rcases List.mem_cons.mp hit with rfl | h2
        · exact absurd rfl hx
        · exact h2
      exact ((ih hnd.2 hit2).cons x).trans (List.Perm.swap it x _)

/-! ## Walks and cycles in the filtered item graph -/

theorem is_walk_cons (items : List SortItem) (a : String) (l : List String)
    (h : is_walk items (a :: l) = true) : is_walk items l = true := by
  cases l with
  | nil => rfl
  | cons b t =>
    unfold is_walk at h
    exact (Bool.and_eq_true_iff.mp h).2

theorem is_walk_drop_prefix (items : List SortItem) (p : List String) :
    ∀ l : List String, is_walk items (p ++ l) = true → is_walk items l = true := by
  induction p with
  | nil => exact fun l h => h
  | cons a p2 ih => exact fun l h => ih l (is_walk_cons items a (p2 ++ l) h)

theorem is_walk_prefix (items : List SortItem) :
    ∀ (l r : List String), is_walk items (l ++ r) = true → is_walk items l = true := by
  intro l
  induction l with
  | nil => intro r _; rfl
  | cons a l2 ih =>
    intro r h
    cases l2 with
    | nil => rfl
    | cons b t =>
      rw [List.cons_append, List.cons_append] at h
      unfold is_walk at h
      have h2 := Bool.and_eq_true_iff.mp h
      unfold is_walk
      rw [Bool.and_eq_true]
      exact ⟨h2.1, ih r (by rw [List.cons_append]; exact h2.2)⟩

theorem walk_mem_next (items : List SortItem) :
    ∀ (l : List String) (t c : String), is_walk items (l ++ [t]) = true → c ∈ l →
      ∃ b, is_edge items c b = true ∧ (b ∈ l ∨ b = t) := by
  intro l
  induction l with
  | nil => intro t c _ hc; simp at hc
  | cons a l2 ih =>
    intro t c h hc
    cases l2 with
    | nil =>
      simp only [List.singleton_append] at h
      unfold is_walk at h
      have h2 := Bool.and_eq_true_iff.mp h
      rcases List.mem_cons.mp hc with rfl | hc2
      · exact ⟨t, h2.1, Or.inr rfl⟩
      · simp at hc2
    | cons b t2 =>
      rw [List.cons_append, List.cons_append] at h
      unfold is_walk at h
      have h2 := Bool.and_eq_true_iff.mp h
      rcases List.mem_cons.mp hc with rfl | hc2
      · exact ⟨b, h2.1, Or.inl (List.mem_cons_of_mem _ (List.mem_cons_self _ _))⟩
      · obtain ⟨b2, hedge, hb2⟩ := ih t c (by rw [List.cons_append]; exact h2.2) hc2
        rcases hb2 with hb2 | rfl
        · exact ⟨b2, hedge, Or.inl (List.mem_cons_of_mem _ hb2)⟩
        · exact ⟨b2, hedge, Or.inr rfl⟩

theorem cycle_next (items : List SortItem) (C : List String) (hC : is_cycle items C = true)
    (c : String) (hc : c ∈ C) : ∃ b ∈ C, is_edge items c b = true := by
  cases C with
  | nil => simp at hc
  | cons x xs =>
    unfold is_cycle at hC
    obtain ⟨b, hedge, hb⟩ := walk_mem_next items (x :: xs) x c hC hc
    rcases hb with hb | rfl
    · exact ⟨b, hb, hedge⟩
    · exact ⟨b, List.mem_cons_self _ _, hedge⟩

theorem cycle_mem_ids (items : List SortItem) (C : List String) (hC : is_cycle items C = true)
    (c : String) (hc : c ∈ C) : c ∈ items.map SortItem.id := by
  obtain ⟨b, hb, hedge⟩ := cycle_next items C hC c hc
  unfold is_edge at hedge
  cases hf : find_item items c with
  | none => rw [hf] at hedge; simp at hedge
  | some it =>
    rw [← find_item_isSome_iff]
    rw [hf]
    rfl

theorem not_nodup_split {α : Type} (l : List α) (h : ¬ l.Nodup) :
    ∃ (a : α) (p q r : List α), l = p ++ a :: (q ++ a :: r) := by
  induction l with
  | nil => exact absurd List.nodup_nil h
  | cons x xs ih =>
    by_cases hx : x ∈ xs
    · obtain ⟨q, r, hqr⟩ := List.append_of_mem hx
      exact ⟨x, [], q, r, by rw [hqr]; rfl⟩
    · have hxs : ¬ xs.Nodup := by
        intro hn
        exact h (List.nodup_cons.mpr ⟨hx, hn⟩)
      obtain ⟨a, p, q, r, hl⟩ := ih hxs
      exact ⟨a, x :: p, q, r, by rw [hl]; rfl⟩

/-! ## A stuck Kahn state contains a cycle -/

theorem stuck_next (items rem : List SortItem) (hsub : rem.Sublist items)
    (hnd : (items.map SortItem.id).Nodup)
    (hstuck : ∀ it ∈ rem, zero_indegree rem it = false) :
    ∀ a ∈ rem.map SortItem.id, ∃ b, next_in rem a = some b ∧ b ∈ rem.map SortItem.id ∧
      is_edge items a b = true := by
  intro a ha
  have hsome : (find_item rem a).isSome = true := (find_item_isSome_iff rem a).mpr ha
  cases hf : find_item rem a with
  | none => rw [hf] at hsome; simp at hsome
  | some it =>
    obtain ⟨hmem, hid⟩ := find_item_some rem a it hf
    have hz := hstuck it hmem
    unfold zero_indegree at hz
    rw [List.all_eq_false] at hz
    obtain ⟨d0, hd0, hd0s⟩ := hz
    have hd0some : (find_item rem d0).isSome = true := by
      cases hfd : find_item rem d0 with
      | none => rw [hfd] at hd0s; simp at hd0s
      | some _ => rfl
    have hfind : (it.depends_on.find? fun d => (find_item rem d).isSome).isSome = true :=
      List.find?_isSome.mpr ⟨d0, hd0, hd0some⟩
    cases hfb : it.depends_on.find? fun d => (find_item rem d).isSome with
    | none => rw [hfb] at hfind; simp at hfind
    | some b =>
      have hbmem : b ∈ it.depends_on := List.mem_of_find?_eq_some hfb
      have hbsome : (find_item rem b).isSome = true := by
        have hb2 := List.find?_some hfb
        simpa using hb2
      have hbids : b ∈ rem.map SortItem.id := (find_item_isSome_iff rem b).mp hbsome
      refine ⟨b, ?_, hbids, ?_⟩
      · unfold next_in
        rw [hf]
        exact hfb
      · unfold is_edge
        rw [find_item_sublist rem items hsub hnd a it hf]
        rw [Bool.and_eq_true]
        constructor
        · exact (contains_iff _ _).mpr hbmem
        · rw [find_item_isSome_iff]
          have : rem.map SortItem.id ⊆ items.map SortItem.id := (hsub.map SortItem.id).subset
          exact this hbids

theorem walkF_props (items rem : List SortItem)
    (hnext : ∀ a ∈ rem.map SortItem.id, ∃ b, next_in rem a = some b ∧
      b ∈ rem.map SortItem.id ∧ is_edge items a b = true) :
    ∀ (k : Nat) (a : String), a ∈ rem.map SortItem.id →
      (walkF rem k a).length = k + 1 ∧ (∀ c ∈ walkF rem k a, c ∈ rem.map SortItem.id) ∧
      is_walk items (walkF rem k a) = true ∧ (walkF rem k a).head? = some a := by
  intro k
  induction k with
  | zero =>
    intro a ha
    unfold walkF
    refine ⟨rfl, ?_, rfl, rfl⟩
    intro c hc
    rw [List.mem_singleton] at hc
    rw [hc]
    exact ha
  | succ k2 ih =>
    intro a ha
    obtain ⟨b, hnb, hbids, hedge⟩ := hnext a ha
    obtain ⟨ihlen, ihmem, ihwalk, ihhead⟩ := ih b hbids
    have hwdef : walkF rem (k2 + 1) a = a :: walkF rem k2 b := by
      conv_lhs => unfold walkF
      rw [hnb]
    rw [hwdef]
    refine ⟨by rw [List.length_cons, ihlen], ?_, ?_, rfl⟩
    · intro c hc
      rcases List.mem_cons.mp hc with rfl | hc2
      · exact ha
      · exact ihmem c hc2
    · cases hw : walkF rem k2 b with
      | nil => rw [hw] at ihlen; simp at ihlen
      | cons b2 t =>
        rw [hw] at ihhead ihwalk
        have hb2 : b2 = b := by
          simp only [List.head?_cons, Option.some_inj] at ihhead
          exact ihhead
        unfold is_walk
        rw [Bool.and_eq_true]
        exact ⟨by rw [hb2]; exact hedge, ihwalk⟩

theorem exists_cycle_of_stuck (items rem : List SortItem) (hsub : rem.Sublist items)
    (hnd : (items.map SortItem.id).Nodup) (hne : rem ≠ [])
    (hstuck : ∀ it ∈ rem, zero_indegree rem it = false) :
    ∃ C, is_cycle items C = true := by
  have hnext := stuck_next items rem hsub hnd hstuck
  obtain ⟨it0, hit0⟩ := List.exists_mem_of_ne_nil rem hne
  have ha0 : it0.id ∈ rem.map SortItem.id := List.mem_map_of_mem SortItem.id hit0
  obtain ⟨hlen, hmem, hwalk, -⟩ := walkF_props items rem hnext rem.length it0.id ha0
  have hnotnodup : ¬ (walkF rem rem.length it0.id).Nodup := by
    intro hn
    have hsubset : walkF rem rem.length it0.id ⊆ rem.map SortItem.id := hmem
    have hsp := (hn.subperm hsubset).length_le
    rw [hlen, List.length_map] at hsp
    omega
  obtain ⟨c, p, q, r, hsplit⟩ := not_nodup_split _ hnotnodup
  rw [hsplit] at hwalk
  have hw2 : is_walk items (c :: (q ++ c :: r)) = true :=
    is_walk_drop_prefix items p _ hwalk
  have hw3 : is_walk items ((c :: q) ++ [c]) = true := by
    apply is_walk_prefix items ((c :: q) ++ [c]) r
    rw [List.append_assoc, List.singleton_append, List.cons_append]
    exact hw2
  exact ⟨c :: q, hw3⟩

/-! ## The Kahn loop: equations and soundness -/

theorem kahn_run_nil (fuel : Nat) (acc : List SortItem) :
    kahn_run fuel [] acc = Except.ok acc.reverse := by
  cases fuel <;> rfl

theorem kahn_run_zero (rem : List SortItem) (acc : List SortItem) (h : rem ≠ []) :
    kahn_run 0 rem acc = Except.error (rem.map SortItem.id) := by
  cases rem with
  | nil => exact absurd rfl h
  | cons r rs => rfl

theorem kahn_run_succ (fuel : Nat) (rem : List SortItem) (acc : List SortItem) (h : rem ≠ []) :
    kahn_run (fuel + 1) rem acc =
      match rem.find? (zero_indegree rem) with
      | some it => kahn_run fuel (remove_id rem it.id) (it :: acc)
      | none => Except.error (rem.map SortItem.id) := by
  cases rem with
  | nil => exact absurd rfl h
  | cons r rs => rfl

theorem kahn_run_ok (items : List SortItem) (hnd : (items.map SortItem.id).Nodup) :
    ∀ (fuel : Nat) (rem acc out : List SortItem),
      rem.Sublist items →
      (∀ it ∈ rem, ∀ d ∈ it.depends_on, d ∈ items.map SortItem.id →
        d ∈ rem.map SortItem.id ∨ d ∈ acc.map SortItem.id) →
      kahn_run fuel rem acc = Except.ok out →
      ∃ tail, out = acc.reverse ++ tail ∧ tail.Perm rem ∧
        SortedFrom items (acc.map SortItem.id) tail := by
  intro fuel
  induction fuel with
  | zero =>
    intro rem acc out hsub hinv h
    cases rem with
    | nil =>
      rw [kahn_run_nil] at h
      refine ⟨[], ?_, List.Perm.refl _, SortedFrom.nil _⟩
      rw [List.append_nil]
      exact (Except.ok.inj h).symm
    | cons r rs =>
      rw [kahn_run_zero _ _ (by simp)] at h
      exact absurd h (by simp)
  | succ fuel2 ih =>
    intro rem acc out hsub hinv h
    cases hrem : rem with
    | nil =>
      subst hrem
      rw [kahn_run_nil] at h
      refine ⟨[], ?_, List.Perm.refl _, SortedFrom.nil _⟩
      rw [List.append_nil]
      exact (Except.ok.inj h).symm
    | cons r rs =>
      subst hrem
      rw [kahn_run_succ _ _ _ (by simp)] at h
      cases hfind : (r :: rs).find? (zero_indegree (r :: rs)) with
      | none =>
        rw [hfind] at h
        exact absurd h (by simp)
      | some it =>
        rw [hfind] at h
        have hit : it ∈ r :: rs := List.mem_of_find?_eq_some hfind
        have hzero : zero_indegree (r :: rs) it = true := List.find?_some hfind
        have hndrem : ((r :: rs).map SortItem.id).Nodup := hnd.sublist (hsub.map SortItem.id)
        have hperm : (r :: rs).Perm (it :: remove_id (r :: rs) it.id) :=
          remove_id_perm _ hndrem it hit
        have hsub2 : (remove_id (r :: rs) it.id).Sublist items :=
          (remove_id_sublist _ _).trans hsub
        have hinv2 : ∀ it2 ∈ remove_id (r :: rs) it.id, ∀ d ∈ it2.depends_on,
            d ∈ items.map SortItem.id →
            d ∈ (remove_id (r :: rs) it.id).map SortItem.id ∨
            d ∈ (it :: acc).map SortItem.id := by
          intro it2 hit2 d hd hdi
          have hit2r : it2 ∈ r :: rs := (remove_id_sublist _ _).subset hit2
          rcases hinv it2 hit2r d hd hdi with hin | hin
          · have : d ∈ (it :: remove_id (r :: rs) it.id).map SortItem.id :=
              ((hperm.map SortItem.id).mem_iff).mp hin
            rw [List.map_cons, List.mem_cons] at this
            rcases this with h2 | h2
            · exact Or.inr (by rw [List.map_cons, List.mem_cons]; exact Or.inl h2)
            · exact Or.inl h2
          · exact Or.inr (by rw [List.map_cons, List.mem_cons]; exact Or.inr hin)
        obtain ⟨tail, hout, hpermtail, hsorted⟩ := ih _ _ _ hsub2 hinv2 h
        refine ⟨it :: tail, ?_, ?_, ?_⟩
        · rw [hout]
          simp
        · exact (hpermtail.cons it).trans hperm.symm
        · refine SortedFrom.cons _ it tail ?_ ?_
          · intro d hd hsome
            have hdi : d ∈ items.map SortItem.id := (find_item_isSome_iff items d).mp hsome
            rcases hinv it hit d hd hdi with hin | hin
            · unfold zero_indegree at hzero
              rw [List.all_eq_true] at hzero
              have := hzero d hd
              rw [Option.isNone_iff_eq_none, find_item_none_iff] at this
              exact absurd hin this
            · exact hin
          · exact hsorted

theorem kahn_run_error (items : List SortItem) (hnd : (items.map SortItem.id).Nodup) :
    ∀ (fuel : Nat) (rem acc : List SortItem) (e : List String),
      rem.Sublist items → rem.length ≤ fuel →
      kahn_run fuel rem acc = Except.error e →
      ∃ rem2 : List SortItem, rem2.Sublist items ∧ rem2 ≠ [] ∧ e = rem2.map SortItem.id ∧
        ∀ it ∈ rem2, zero_indegree rem2 it = false := by
  intro fuel
  induction fuel with
  | zero =>
    intro rem acc e hsub hlen h
    cases rem with
    | nil =>
      rw [kahn_run_nil] at h
      exact absurd h (by simp)
    | cons r rs => simp at hlen
  | succ fuel2 ih =>
    intro rem acc e hsub hlen h
    cases rem with
    | nil =>
      rw [kahn_run_nil] at h
      exact absurd h (by simp)
    | cons r rs =>
      rw [kahn_run_succ _ _ _ (by simp)] at h
      cases hfind : (r :: rs).find? (zero_indegree (r :: rs)) with
      | none =>
        rw [hfind] at h
        refine ⟨r :: rs, hsub, by simp, (Except.error.inj h).symm, ?_⟩
        intro it hit
        have := List.find?_eq_none.mp hfind it hit
        cases hz : zero_indegree (r :: rs) it with
        | false => rfl
        | true => exact absurd hz this
      | some it =>
        rw [hfind] at h
        have hit : it ∈ r :: rs := List.mem_of_find?_eq_some hfind
        have hndrem : ((r :: rs).map SortItem.id).Nodup := hnd.sublist (hsub.map SortItem.id)
        have hperm : (r :: rs).Perm (it :: remove_id (r :: rs) it.id) :=
          remove_id_perm _ hndrem it hit
        have hsub2 : (remove_id (r :: rs) it.id).Sublist items :=
          (remove_id_sublist _ _).trans hsub
        have hlen2 : (remove_id (r :: rs) it.id).length ≤ fuel2 := by
          have hl := hperm.length_eq
          rw [List.length_cons, List.length_cons] at hl
          rw [List.length_cons] at hlen
          omega
        exact ih _ _ _ hsub2 hlen2 h

theorem kahn_run_error_of_cycle (items : List SortItem) (hnd : (items.map SortItem.id).Nodup)
    (C : List String) (hC : is_cycle items C = true) :
    ∀ (fuel : Nat) (rem acc : List SortItem),
      rem.Sublist items → (∀ c ∈ C, c ∈ rem.map SortItem.id) →
      ∃ e, kahn_run fuel rem acc = Except.error e := by
  intro fuel
  induction fuel with
  | zero =>
    intro rem acc hsub hmem
    cases rem with
    | nil =>
      cases C with
      | nil => simp [is_cycle] at hC
      | cons x xs => simpa using hmem x (List.mem_cons_self _ _)
    | cons r rs =>
      exact ⟨_, kahn_run_zero (r :: rs) acc (by simp)⟩
  | succ fuel2 ih =>
    intro rem acc hsub hmem
    cases rem with
    | nil =>
      cases C with
      | nil => simp [is_cycle] at hC
      | cons x xs => simpa using hmem x (List.mem_cons_self _ _)
    | cons r rs =>
      rw [kahn_run_succ _ _ _ (by simp)]
      cases hfind : (r :: rs).find? (zero_indegree (r :: rs)) with
      | none => exact ⟨_, rfl⟩
      | some it =>
        have hit : it ∈ r :: rs := List.mem_of_find?_eq_some hfind
        have hzero : zero_indegree (r :: rs) it = true := List.find?_some hfind
        have hndrem : ((r :: rs).map SortItem.id).Nodup := hnd.sublist (hsub.map SortItem.id)
        have hperm : (r :: rs).Perm (it :: remove_id (r :: rs) it.id) :=
          remove_id_perm _ hndrem it hit
        have hsub2 : (remove_id (r :: rs) it.id).Sublist items :=
          (remove_id_sublist _ _).trans hsub
        suffices hgoal : ∃ e, kahn_run fuel2 (remove_id (r :: rs) it.id) (it :: acc)
            = Except.error e from hgoal
        apply ih _ (it :: acc) hsub2
        intro c hc
        have hcrem : c ∈ (r :: rs).map SortItem.id := hmem c hc
        have hcne : c ≠ it.id := by
          intro hceq
          obtain ⟨b, hbC, hedge⟩ := cycle_next items C hC c hc
          have hbrem : b ∈ (r :: rs).map SortItem.id := hmem b hbC
          unfold is_edge at hedge
          cases hfc : find_item items c with
          | none => rw [hfc] at hedge; simp at hedge
          | some itc =>
            rw [hfc] at hedge
            rw [Bool.and_eq_true] at hedge
            have hitc : itc = it := by
              have h1 := find_item_some items c itc hfc
              have h2 : find_item items it.id = some it :=
                find_item_of_mem_nodup items hnd it (hsub.subset hit)
              rw [← hceq] at h2
              rw [hfc] at h2
              exact Option.some_inj.mp h2
            have hbdep : b ∈ it.depends_on := by
              rw [← hitc]
              exact (contains_iff _ _).mp hedge.1
            unfold zero_indegree at hzero
            rw [List.all_eq_true] at hzero
            have := hzero b hbdep
            rw [Option.isNone_iff_eq_none, find_item_none_iff] at this
            exact this hbrem
        have : c ∈ (it :: remove_id (r :: rs) it.id).map SortItem.id :=
          ((hperm.map SortItem.id).mem_iff).mp hcrem
        rw [List.map_cons, List.mem_cons] at this
        rcases this with h2 | h2
        · exact absurd h2 hcne
        · exact h2

/-! ## From the emitted-prefix invariant to positional precedence -/

theorem sortedFrom_get (items : List SortItem) :
    ∀ (em : List String) (l : List SortItem), SortedFrom items em l →
      ∀ (j : Nat) (it : SortItem), l.get? j = some it →
      ∀ d ∈ it.depends_on, (find_item items d).isSome = true →
      d ∈ em ∨ d ∈ (l.take j).map SortItem.id := by
  intro em l h
  induction h with
  | nil em2 =>
    intro j it hj
    simp at hj
  | cons em2 it2 l2 hdeps htail ih =>
    intro j it hj d hd hsome
    cases j with
    | zero =>
      simp only [List.get?] at hj
      have hit : it2 = it := Option.some_inj.mp hj
      subst hit
      exact Or.inl (hdeps d hd hsome)
    | succ k =>
      have hj2 : l2.get? k = some it := by simpa using hj
      rcases ih k it hj2 d hd hsome with h2 | h2
      · rcases List.mem_cons.mp h2 with rfl | h3
        · refine Or.inr ?_
          rw [List.take_succ_cons, List.map_cons]
          exact List.mem_cons_self _ _
        · exact Or.inl h3
      · refine Or.inr ?_
        rw [List.take_succ_cons, List.map_cons]
        exact List.mem_cons_of_mem _ h2

theorem sorted_precedes (items tail : List SortItem)
    (h : SortedFrom items [] tail) (it : SortItem) (hit : it ∈ tail) (d : String)
    (hd : d ∈ it.depends_on) (hsome : (find_item items d).isSome = true) :
    precedes (tail.map SortItem.id) d it.id := by
  obtain ⟨j, hj⟩ := List.mem_iff_get?.mp hit
  rcases sortedFrom_get items [] tail h j it hj d hd hsome with h0 | hmem
  · simp at h0
  · rw [List.map_take] at hmem
    obtain ⟨i, hi⟩ := List.mem_iff_get?.mp hmem
    have hilt : i < (List.take j (tail.map SortItem.id)).length :=
      (List.get?_eq_some.mp hi).1
    have hij : i < j := by
      rw [List.length_take] at hilt
      omega
    refine ⟨i, j, hij, ?_, ?_⟩
    · rw [← List.get?_take hij]
      exact hi
    · rw [List.get?_map, hj]
      rfl

/-! ## The filtered items of a graph -/

theorem sort_items_ids (g : DependencyGraph) (ed : Bool) :
    (g.sort_items ed).map SortItem.id = g.nodes.map fun p => p.2.name := by
  unfold DependencyGraph.sort_items
  rw [List.map_map]
  rfl

theorem sort_items_ids_wf (g : DependencyGraph) (hwf : wf_graph g) (ed : Bool) :
    (g.sort_items ed).map SortItem.id = g.nodes.map Prod.fst := by
  rw [sort_items_ids]
  exact List.map_congr_left fun p hp => hwf.2.1 p hp

theorem sort_items_nodup (g : DependencyGraph) (hwf : wf_graph g) (ed : Bool) :
    ((g.sort_items ed).map SortItem.id).Nodup := by
  rw [sort_items_ids_wf g hwf ed]
  exact hwf.1

theorem sort_items_dep_mem (g : DependencyGraph) (ed : Bool) (hwf : wf_graph g)
    (it : SortItem) (hit : it ∈ g.sort_items ed) (d : String) (hd : d ∈ it.depends_on) :
    d ∈ (g.sort_items ed).map SortItem.id := by
  unfold DependencyGraph.sort_items at hit
  obtain ⟨p, hp, hpeq⟩ := List.mem_map.mp hit
  have hd2 : d ∈ it.depends_on := hd
  rw [← hpeq] at hd2
  dsimp only at hd2
  obtain ⟨q, hq, hqeq⟩ := List.mem_map.mp hd2
  rw [List.mem_filter] at hq
  have hcond := hq.2
  have hmh : mhas g.nodes q.1 = true := by
    split at hcond
    · exact absurd hcond (by simp)
    · exact hcond
  rw [sort_items_ids_wf g hwf ed, ← hqeq, ← mhas_iff_mem_keys]
  exact hmh

/-! ## Graphs with no retained edges are acyclic -/

theorem is_edge_false_of_no_deps (items : List SortItem)
    (h : ∀ it ∈ items, it.depends_on = []) (a b : String) : is_edge items a b = false := by
  unfold is_edge
  cases hf : find_item items a with
  | none => rfl
  | some it =>
    have hdep : it.depends_on = [] := h it (find_item_some items a it hf).1
    show (it.depends_on.contains b && (find_item items b).isSome) = false
    rw [hdep]
    rfl

theorem acyclic_of_no_edges (items : List SortItem)
    (h : ∀ it ∈ items, it.depends_on = []) : acyclic items := by
  intro l
  cases l with
  | nil => rfl
  | cons x xs =>
    show is_walk items ((x :: xs) ++ [x]) = false
    rw [List.cons_append]
    cases hxx : xs ++ [x] with
    | nil => exact absurd hxx (by simp)
    | cons y t =>
      unfold is_walk
      rw [is_edge_false_of_no_deps items h x y]
      rfl

/-! ## Claim C3: ordering failure exactly on cycles -/

/-- C3: `topological_sort` fails exactly when the filtered item graph
(internal edges, minus dev edges when `exclude_dev`) has a cycle, and the
error carries the unresolved node names: a nonempty set of node names each
of which still waits on another unresolved name through a retained edge. -/
theorem topological_sort_error_iff (g : DependencyGraph) (hwf : wf_graph g) (ed : Bool) :
    ((∃ e, g.topological_sort ed = Except.error e) ↔ ¬ acyclic (g.sort_items ed)) ∧
    (∀ e, g.topological_sort ed = Except.error e →
      e ≠ [] ∧ (∀ m ∈ e, m ∈ g.nodes.map fun p => p.2.name) ∧
      (∀ m ∈ e, ∃ d ∈ e, is_edge (g.sort_items ed) m d = true)) := by
  have hnd := sort_items_nodup g hwf ed
  have herr : ∀ e, g.topological_sort ed = Except.error e →
      ∃ rem2 : List SortItem, rem2.Sublist (g.sort_items ed) ∧ rem2 ≠ [] ∧
        e = rem2.map SortItem.id ∧ ∀ it ∈ rem2, zero_indegree rem2 it = false := by
    intro e he
    unfold DependencyGraph.topological_sort at he
    cases hg : topological_sort_generic (g.sort_items ed) with
    | ok sorted =>
      rw [hg] at he
      exact absurd he (by simp)
    | error e0 =>
      rw [hg] at he
      have he2 : e0 = e := Except.error.inj he
      unfold topological_sort_generic at hg
      obtain ⟨rem2, h1, h2, h3, h4⟩ := kahn_run_error (g.sort_items ed) hnd
        (g.sort_items ed).length (g.sort_items ed) [] e0 (List.Sublist.refl _)
        (Nat.le_refl _) hg
      exact ⟨rem2, h1, h2, he2 ▸ h3, h4⟩
  constructor
  · constructor
    · rintro ⟨e, he⟩ hac
      obtain ⟨rem2, hsub2, hne2, -, hstuck⟩ := herr e he
      obtain ⟨Cc, hCc⟩ := exists_cycle_of_stuck _ rem2 hsub2 hnd hne2 hstuck
      rw [hac Cc] at hCc
      exact Bool.false_ne_true hCc
    · intro hnac
      unfold acyclic at hnac
      push_neg at hnac
      obtain ⟨C, hC⟩ := hnac
      have hC2 : is_cycle (g.sort_items ed) C = true := by
        cases hb : is_cycle (g.sort_items ed) C with
        | false => exact absurd hb hC
        | true => rfl
      obtain ⟨e, he⟩ := kahn_run_error_of_cycle _ hnd C hC2 (g.sort_items ed).length
        (g.sort_items ed) [] (List.Sublist.refl _) (fun c hc => cycle_mem_ids _ C hC2 c hc)
      refine ⟨e, ?_⟩
      unfold DependencyGraph.topological_sort topological_sort_generic
      rw [he]
  · intro e he
    obtain ⟨rem2, hsub2, hne2, heq, hstuck⟩ := herr e he
    subst heq
    refine ⟨by simp [hne2], ?_, ?_⟩
    · intro m hm
      rw [← sort_items_ids]
      exact (hsub2.map SortItem.id).subset hm
    · intro m hm
      obtain ⟨it, hit, hideq⟩ := List.mem_map.mp hm
      have hz := hstuck it hit
      unfold zero_indegree at hz
      rw [List.all_eq_false] at hz
      obtain ⟨d, hd, hds⟩ := hz
      have hdsome : (find_item rem2 d).isSome = true := by
        cases hfd : find_item rem2 d with
        | none => rw [hfd] at hds; simp at hds
        | some _ => rfl
      refine ⟨d, (find_item_isSome_iff rem2 d).mp hdsome, ?_⟩
      unfold is_edge
      rw [← hideq]
      rw [find_item_of_mem_nodup _ hnd it (hsub2.subset hit)]
      rw [Bool.and_eq_true]
      refine ⟨(contains_iff _ _).mpr hd, ?_⟩
      rw [find_item_isSome_iff]
      exact (hsub2.map SortItem.id).subset ((find_item_isSome_iff rem2 d).mp hdsome)

/-- Witness for C3 at the two-node prod cycle: the sort errors and the
filtered graph is indeed cyclic. -/
theorem topological_sort_error_iff_witness :
    (∃ e, cycle_graph.topological_sort false = Except.error e) ∧
    ¬ acyclic (cycle_graph.sort_items false) := by
  have h := topological_sort_error_iff cycle_graph (by decide) false
  have hcyc : ¬ acyclic (cycle_graph.sort_items false) := by
    intro hac
    have := hac ["a", "b"]
    exact absurd this (by decide)
  exact ⟨h.1.mpr hcyc, hcyc⟩

/-! ## Claim C1: soundness of the sort on acyclic graphs -/

/-- C1: on a well-formed graph whose non-dev internal edges are acyclic,
`topological_sort(true)` succeeds with a permutation of all node names in
which every retained edge's dependency precedes its dependent. -/
theorem topological_sort_acyclic_correct (g : DependencyGraph) (hwf : wf_graph g)
    (hacyc : acyclic (g.sort_items true)) :
    ∃ out, g.topological_sort true = Except.ok out ∧
      out.Perm (g.nodes.map fun p => p.2.name) ∧
      ∀ it ∈ g.sort_items true, ∀ d ∈ it.depends_on, precedes out d it.id := by
  have hnd := sort_items_nodup g hwf true
  have hnoerr : ¬ ∃ e, g.topological_sort true = Except.error e := by
    intro he
    exact absurd hacyc ((topological_sort_error_iff g hwf true).1.mp he)
  cases hs : g.topological_sort true with
  | error e => exact absurd ⟨e, hs⟩ hnoerr
  | ok out =>
    have hfacts : ∃ sorted : List SortItem, sorted.map SortItem.id = out ∧
        sorted.Perm (g.sort_items true) ∧ SortedFrom (g.sort_items true) [] sorted := by
      unfold DependencyGraph.topological_sort at hs
      cases hg : topological_sort_generic (g.sort_items true) with
      | error e0 =>
        rw [hg] at hs
        exact absurd hs (by simp)
      | ok sorted =>
        rw [hg] at hs
        have hout : sorted.map SortItem.id = out := Except.ok.inj hs
        unfold topological_sort_generic at hg
        obtain ⟨tail, htail, hperm, hsorted⟩ := kahn_run_ok (g.sort_items true) hnd
          (g.sort_items true).length (g.sort_items true) [] sorted (List.Sublist.refl _)
          (fun it hit d hd hdi => Or.inl hdi) hg
        rw [List.reverse_nil, List.nil_append] at htail
        subst htail
        exact ⟨sorted, hout, hperm, hsorted⟩
    obtain ⟨sorted, hout, hperm, hsorted⟩ := hfacts
    refine ⟨out, rfl, ?_, ?_⟩
    · rw [← hout]
      have hp2 := hperm.map SortItem.id
      rwa [sort_items_ids] at hp2
    · intro it hit d hd
      rw [← hout]
      have hsome : (find_item (g.sort_items true) d).isSome = true := by
        rw [find_item_isSome_iff]
        exact sort_items_dep_mem g true hwf it hit d hd
      exact sorted_precedes _ sorted hsorted it (hperm.mem_iff.mpr hit) d hd hsome

/-- Witness for C1 at a two-node edge-free graph. -/
theorem topological_sort_acyclic_correct_witness :
    ∃ out, two_node_graph.topological_sort true = Except.ok out ∧
      out.Perm (two_node_graph.nodes.map fun p => p.2.name) ∧
      ∀ it ∈ two_node_graph.sort_items true, ∀ d ∈ it.depends_on, precedes out d it.id :=
  topological_sort_acyclic_correct two_node_graph (by decide)
    (acyclic_of_no_edges _ (by decide))

/-! ## Claim C4: dev-only cycles never block publishing -/

/-- C4: on a well-formed graph whose dev-excluded item graph is acyclic
while the full item graph is cyclic (a dev-only cycle),
`topological_sort(true)` succeeds, `topological_sort(false)` fails with an
ordering error, and `compute_publishing_order` is exactly
`topological_sort(true)`. -/
theorem dev_only_cycles_publishing (g : DependencyGraph) (hwf : wf_graph g)
    (hdev : acyclic (g.sort_items true)) (hcyc : ¬ acyclic (g.sort_items false)) :
    (∃ out, g.topological_sort true = Except.ok out) ∧
    (∃ e, g.topological_sort false = Except.error e) ∧
    DependencyGraphBuilder.compute_publishing_order g = g.topological_sort true := by
  refine ⟨?_, (topological_sort_error_iff g hwf false).1.mpr hcyc, rfl⟩
  obtain ⟨out, hout, -, -⟩ := topological_sort_acyclic_correct g hwf hdev
  exact ⟨out, hout⟩

/-- Witness for C4 at the two-node dev cycle. -/
theorem dev_only_cycles_publishing_witness :
    (∃ out, dev_cycle_graph.topological_sort true = Except.ok out) ∧
    (∃ e, dev_cycle_graph.topological_sort false = Except.error e) ∧
    DependencyGraphBuilder.compute_publishing_order dev_cycle_graph
      = dev_cycle_graph.topological_sort true :=
  dev_only_cycles_publishing dev_cycle_graph (by decide)
    (acyclic_of_no_edges _ (by decide))
    (fun hac => absurd (hac ["a", "b"]) (by decide))
